import Mathlib

/-!
Verification development for the matchmaker repository (Deferred Acceptance -
Single Tie Break matching engine, `src/da_stb.rs` and `src/lib.rs`).

The Rust code is embedded shallowly:
  * `Category`, `Student`, `OrderedStudent`, `MatchResult` mirror the structs of
    `lib.rs`.  Rust compares `Category` and `Student` values by name only; every
    place where the code performs such a comparison is translated as an explicit
    comparison of the `name` fields.
  * The `HashMap<String, Vec<_>>` values are modeled as association lists with
    unique keys; all accesses in the source go through `get`/`get_mut`/
    `insert`/`remove`/`entry`, which are translated to `lookupA`/`pushA`/
    `setA`/`removeA`/`ensureKey` below.  Iteration order over the map itself is
    never observable in the source (loops iterate over the category list).
  * The random generator is modeled at the interface boundary required of it by
    the library: a shuffle oracle (`Rng.perm`, used once per matcher round) and
    a stream of uniform index draws (`Rng.draws`, one index consumed by each
    non-trivial `iter().choose` call in `assign_random`).
  * The `while` loops become fuel recursion; the fuel chosen in the definitions
    is proved sufficient (the loop always reaches its exit condition first).
  * `usize` arithmetic is modeled on `Nat`; the initial `usize::MAX` sentinel of
    `match_students_to_multiple_categories` is kept as the constant
    `USIZE_MAX`.
-/

/-- Mirrors `Category` of `lib.rs`: a named slot with capacity `max_placements`. -/
structure Category where
  name : String
  max_placements : Nat
deriving DecidableEq, Repr

/-- Mirrors `Student` of `lib.rs`.  The `VecDeque` of preferences (popped from
the front) is a `List` consumed from the head. -/
structure Student where
  name : String
  preferences : List Category
  exclude : List Category
deriving DecidableEq, Repr

/-- Mirrors the internal `OrderedStudent` of `lib.rs`: a student decorated with
the random tie-break rank `order`. -/
structure OrderedStudent where
  name : String
  preferences : List Category
  exclude : List Category
  order : Nat
deriving DecidableEq, Repr

/-- Mirrors `MatchResult` of `lib.rs`; the `HashMap` is an association list. -/
structure MatchResult where
  placed : List (String × List Student)
  not_placable : List Student
deriving DecidableEq, Repr

/-- Association-list lookup, modeling `HashMap::get`. -/
def lookupA {α : Type} : List (String × α) → String → Option α
  | [], _ => none
  | (k', v) :: rest, k => if k' == k then some v else lookupA rest k

/-- Modeling `match placed.get_mut(&k) { Some(v) => v.push(s), None => placed.insert(k, vec![s]) }`. -/
def pushA {α : Type} : List (String × List α) → String → α → List (String × List α)
  | [], k, s => [(k, [s])]
  | (k', l) :: rest, k, s =>
    if k' == k then (k', l ++ [s]) :: rest else (k', l) :: pushA rest k s

/-- Replace the value stored at a key (used to model in-place `sort` + `drain`). -/
def setA {α : Type} : List (String × α) → String → α → List (String × α)
  | [], k, v => [(k, v)]
  | (k', v') :: rest, k, v =>
    if k' == k then (k', v) :: rest else (k', v') :: setA rest k v

/-- Modeling `HashMap::remove` (association lists built here have unique keys). -/
def removeA {α : Type} : List (String × α) → String → List (String × α)
  | [], _ => []
  | (k', v) :: rest, k => if k' == k then rest else (k', v) :: removeA rest k

/-- Modeling `if map.get(&k).is_none() { map.insert(k, Vec::new()) }`. -/
def ensureKey {α : Type} (m : List (String × List α)) (k : String) : List (String × List α) :=
  match lookupA m k with
  | some _ => m
  | none => m ++ [(k, [])]

/-- Map over stored values, keys unchanged (used by `MatchResult::from`). -/
def mapVals {α β : Type} (f : α → β) (m : List (String × List α)) : List (String × List β) :=
  m.map (fun p => (p.1, p.2.map f))

abbrev PMap := List (String × List OrderedStudent)

/-- Rust `student.exclude.contains(&category)`: `Category` equality is by name. -/
def excludesCat (ex : List Category) (n : String) : Bool :=
  ex.any (fun e => e.name == n)

/-- Mirrors `place_students` of `da_stb.rs`: each unplaced student pops its
front preference; students with exhausted or excluded preferences go to
`not_placable`, the rest are appended to the popped category's list. -/
def place_students : List OrderedStudent → PMap → List OrderedStudent → PMap × List OrderedStudent
  | [], placed, notP => (placed, notP)
  | s :: rest, placed, notP =>
    match s.preferences with
    | [] => place_students rest placed (notP ++ [s])
    | c :: prefs =>
      let s' : OrderedStudent := ⟨s.name, prefs, s.exclude, s.order⟩
      if excludesCat s.exclude c.name then
        place_students rest placed (notP ++ [s'])
      else
        place_students rest (pushA placed c.name s') notP

/-- Stable insertion into a list sorted by ascending `order` (element goes
before the first strictly greater entry). -/
def insertOS (s : OrderedStudent) : List OrderedStudent → List OrderedStudent
  | [] => [s]
  | t :: ts => if t.order < s.order then t :: insertOS s ts else s :: t :: ts

/-- Stable sort by ascending `order`, the semantics of `Vec::sort` on
`OrderedStudent` (whose `Ord` compares `order` only). -/
def sortOS : List OrderedStudent → List OrderedStudent
  | [] => []
  | s :: rest => insertOS s (sortOS rest)

/-- Mirrors `truncate_categories` of `da_stb.rs`: for each listed category
holding more students than its capacity, sort its list by rank, keep the first
`max_placements` entries and return the rest as newly unplaced students. -/
def truncate_categories : PMap → List Category → PMap × List OrderedStudent
  | placed, [] => (placed, [])
  | placed, c :: cs =>
    match lookupA placed c.name with
    | some l =>
      if c.max_placements < l.length then
        let sorted := sortOS l
        let res := truncate_categories (setA placed c.name (sorted.take c.max_placements)) cs
        (res.1, sorted.drop c.max_placements ++ res.2)
      else
        truncate_categories placed cs
    | none => truncate_categories placed cs

/-- One iteration of the deferred-acceptance `while` loop of `match_students`:
a placement pass followed by capacity truncation.  The first component of the
state is the unplaced batch. -/
def da_step (cats : List Category) (st : List OrderedStudent × PMap × List OrderedStudent) :
    List OrderedStudent × PMap × List OrderedStudent :=
  let pl := place_students st.1 st.2.1 st.2.2
  let tr := truncate_categories pl.1 cats
  (tr.2, tr.1, pl.2)

/-- Fuel recursion for the `while !unplaced_students.is_empty()` loop of
`match_students`; the fuel used in `match_students` is proved sufficient. -/
def da_loop (cats : List Category) : Nat → List OrderedStudent → PMap → List OrderedStudent → PMap × List OrderedStudent
  | 0, _, placed, notP => (placed, notP)
  | fuel + 1, unplaced, placed, notP =>
    if unplaced.isEmpty then (placed, notP)
    else
      let st := da_step cats (unplaced, placed, notP)
      da_loop cats fuel st.1 st.2.1 st.2.2

/-- Open categories for a student in `assign_random`: under capacity and not
excluded (both filters of the source, in order). -/
def openCats (placed : PMap) (cats : List Category) (s : OrderedStudent) : List Category :=
  (cats.filter fun c => ((lookupA placed c.name).getD []).length < c.max_placements).filter
    fun c => !(excludesCat s.exclude c.name)

/-- Worker of `assign_random`, processing the sorted pool.  A call to
`open_categories.iter().choose(&mut rng)` consumes one uniform draw exactly
when the candidate list is non-empty, yielding the element at the drawn index. -/
def assignRandomGo : List OrderedStudent → PMap → List Category → List Nat →
    List OrderedStudent × PMap × List Nat
  | [], placed, _, draws => ([], placed, draws)
  | s :: rest, placed, cats, draws =>
    match openCats placed cats s with
    | [] =>
      let res := assignRandomGo rest placed cats draws
      (s :: res.1, res.2.1, res.2.2)
    | c0 :: cs =>
      let c := (c0 :: cs).getD (draws.headD 0 % (cs.length + 1)) c0
      assignRandomGo rest (pushA placed c.name s) cats draws.tail

/-- Mirrors `assign_random` of `da_stb.rs`: sort the leftover pool by rank,
then give each student a uniformly drawn open, non-excluded category if any;
returns the students that remain unplacable together with the advanced map and
draw stream. -/
def assign_random (not_placable : List OrderedStudent) (placed : PMap) (cats : List Category)
    (draws : List Nat) : List OrderedStudent × PMap × List Nat :=
  assignRandomGo (sortOS not_placable) placed cats draws

/-- Random source at the contract boundary of §6: a shuffle oracle plus the
stream of uniform index draws consumed by `choose`. -/
structure Rng where
  perm : List Student → List Student
  draws : List Nat

/-- Decoration of the shuffled list with ranks `0, 1, 2, …` (the `enumerate`
of `draw_order`). -/
def number_students : List Student → Nat → List OrderedStudent
  | [], _ => []
  | s :: rest, i => ⟨s.name, s.preferences, s.exclude, i⟩ :: number_students rest (i + 1)

/-- Mirrors `draw_order` of `da_stb.rs`: shuffle, then attach indices as ranks. -/
def draw_order (students : List Student) (rng : Rng) : List OrderedStudent :=
  number_students (rng.perm students) 0

/-- Projection `impl From<OrderedStudent> for Student`. -/
def OrderedStudent.toStudent (os : OrderedStudent) : Student :=
  ⟨os.name, os.preferences, os.exclude⟩

/-- Mirrors `MatchResult::from`: drop the ranks everywhere. -/
def MatchResult.fromParts (placed : PMap) (not_placable : List OrderedStudent) : MatchResult :=
  ⟨mapVals OrderedStudent.toStudent placed, not_placable.map OrderedStudent.toStudent⟩

/-- Number of remaining preference entries of a batch of students. -/
def prefMass (l : List OrderedStudent) : Nat :=
  (l.map (fun s => s.preferences.length)).sum

/-- All students currently held by some category of the table. -/
def heldAll (m : PMap) : List OrderedStudent :=
  (m.map (fun p => p.2)).flatten

/-- Termination measure of the deferred-acceptance loop: remaining preference
entries plus student count, over the unplaced batch and the held table. -/
def phi (unplaced : List OrderedStudent) (placed : PMap) : Nat :=
  prefMass unplaced + unplaced.length + prefMass (heldAll placed) + (heldAll placed).length

/-- Mirrors `match_students` of `da_stb.rs`, threading the random source; the
second component is the advanced random source. -/
def match_students_rng (students : List Student) (cats : List Category) (rng : Rng) :
    MatchResult × Rng :=
  let unplaced := draw_order students rng
  let lp := da_loop cats (phi unplaced [] + 1) unplaced [] []
  let ar := assign_random lp.2 lp.1 cats rng.draws
  (MatchResult.fromParts ar.2.1 ar.1, ⟨rng.perm, ar.2.2⟩)

/-- Mirrors the public `match_students` (single placement per student). -/
def match_students (students : List Student) (cats : List Category) (rng : Rng) : MatchResult :=
  (match_students_rng students cats rng).1

/-- Internal final state of one `match_students` run: the still-unplacable
pool, the final placement table and the remaining draw stream. -/
def ms_internal (students : List Student) (cats : List Category) (rng : Rng) :
    List OrderedStudent × PMap × List Nat :=
  let unplaced := draw_order students rng
  let lp := da_loop cats (phi unplaced [] + 1) unplaced [] []
  assignRandomGo (sortOS lp.2) lp.1 cats rng.draws

/-- Iterated deferred-acceptance steps (for stating loop properties). -/
def stepIter (cats : List Category) : Nat → (List OrderedStudent × PMap × List OrderedStudent) →
    List OrderedStudent × PMap × List OrderedStudent
  | 0, st => st
  | k + 1, st => stepIter cats k (da_step cats st)

/-- Mirrors `student.exclude.push(category.clone())` applied to every current
student whose name matches a just-placed student. -/
def push_exclude (students : List Student) (n : String) (c : Category) : List Student :=
  students.map fun s =>
    if s.name == n then ⟨s.name, s.preferences, s.exclude ++ [c]⟩ else s

/-- Inner loop `for ps in placed_students` of the orchestrator merge: each
placed student is excluded from the category for the following rounds and
appended to the aggregate result under the category's name. -/
def add_placed (c : Category) : List Student → MatchResult → List Student →
    List Student × MatchResult
  | students, acc, [] => (students, acc)
  | students, acc, p :: ps =>
    add_placed c (push_exclude students p.name c) ⟨pushA acc.placed c.name p, acc.not_placable⟩ ps

/-- Mirrors the merge loop `for category in categories.iter_mut()` of
`match_students_to_multiple_categories`: removes each category's newly placed
list from the round result, decrements the category's remaining capacity,
grows each placed student's exclusion set, and extends the aggregate result.
Returns the updated categories, students and aggregate. -/
def merge_round : List Category → List Student → MatchResult → List (String × List Student) →
    List Category × List Student × MatchResult
  | [], students, acc, _ => ([], students, acc)
  | c :: cs, students, acc, newPlaced =>
    match lookupA newPlaced c.name with
    | some ps =>
      let c' : Category := ⟨c.name, c.max_placements - ps.length⟩
      let acc₁ : MatchResult := ⟨ensureKey acc.placed c.name, acc.not_placable⟩
      let sa := add_placed c' students acc₁ ps
      let res := merge_round cs sa.1 sa.2 (removeA newPlaced c.name)
      (c' :: res.1, res.2.1, res.2.2)
    | none =>
      let res := merge_round cs students acc newPlaced
      (c :: res.1, res.2.1, res.2.2)

/-- Initial value of `previous_spots_available` in the orchestrator. -/
def USIZE_MAX : Nat := 2 ^ 64 - 1

/-- Total remaining capacity of a category list. -/
def spotsOf (cats : List Category) : Nat :=
  (cats.map (fun c => c.max_placements)).sum

/-- Fuel recursion for the round loop of
`match_students_to_multiple_categories`; the guard forces `spots` to strictly
decrease, so the fuel chosen in the wrapper is sufficient. -/
def multi_loop : Nat → List Student → List Category → MatchResult → Nat → Nat → Bool → Rng →
    MatchResult
  | 0, _, _, acc, _, _, _, _ => acc
  | fuel + 1, students, cats, acc, prev, spots, firstRound, rng =>
    if 0 < spots ∧ spots < prev then
      let mr := match_students_rng students cats rng
      let merged := merge_round cats students acc mr.1.placed
      let acc' : MatchResult :=
        if firstRound then ⟨merged.2.2.placed, mr.1.not_placable⟩ else merged.2.2
      multi_loop fuel merged.2.1 merged.1 acc' spots (spotsOf merged.1) false mr.2
    else acc

/-- Mirrors the public `match_students_to_multiple_categories` of `da_stb.rs`. -/
def match_students_to_multiple_categories (students : List Student) (cats : List Category)
    (rng : Rng) : MatchResult :=
  multi_loop (spotsOf cats + 1) students cats ⟨[], []⟩ USIZE_MAX (spotsOf cats) true rng

/-- Identity-relevant projection of an internal student record: its name and
exclusion set (the fields never modified inside one matcher run). -/
def pairOf (r : OrderedStudent) : String × List Category :=
  (r.name, r.exclude)

/-- Identity-relevant projection of a caller-level student. -/
def spairOf (s : Student) : String × List Category :=
  (s.name, s.exclude)

/-- Multiset of identity projections of a batch of internal records. -/
def pairsM (l : List OrderedStudent) : Multiset (String × List Category) :=
  (l.map pairOf : Multiset (String × List Category))

/-- Multiset of identity projections of caller-level students. -/
def spairsM (l : List Student) : Multiset (String × List Category) :=
  (l.map spairOf : Multiset (String × List Category))

/-- Multiset of students currently held by the placement table. -/
def heldM (m : PMap) : Multiset OrderedStudent :=
  (heldAll m : Multiset OrderedStudent)

/-- Preference entries plus student count of a batch (the per-batch part of the
loop measure `phi`). -/
def wmass (l : List OrderedStudent) : Nat :=
  prefMass l + l.length

/-- Predicate: no category of the table holds a student that excludes it. -/
def mapOK (m : PMap) : Prop :=
  ∀ k l, lookupA m k = some l → ∀ r ∈ l, excludesCat r.exclude k = false

/-- Predicate: every listed category's held list is within its capacity. -/
def capsOK (m : PMap) (cats : List Category) : Prop :=
  ∀ c ∈ cats, ((lookupA m c.name).getD []).length ≤ c.max_placements

/-- Predicate: the association list has pairwise distinct keys (maps built by
the engine from the empty map always satisfy this). -/
def keysND {α : Type} (m : List (String × α)) : Prop :=
  (m.map Prod.fst).Nodup

/-- Per-category eviction contribution of one truncation pass over the given
table: the beyond-capacity tail of the rank-sorted held list. -/
def evPart (placed : PMap) (c : Category) : List OrderedStudent :=
  match lookupA placed c.name with
  | some l => if c.max_placements < l.length then (sortOS l).drop c.max_placements else []
  | none => []

/-- Concrete data of the repository's example scenario (`tests/da_stb.rs`):
categories Cooking, Reading, Walking with adjustable capacities. -/
def exCooking (n : Nat) : Category := ⟨"Cooking", n⟩

/-- Reading category of the example scenario. -/
def exReading (n : Nat) : Category := ⟨"Reading", n⟩

/-- Walking category of the example scenario. -/
def exWalking (n : Nat) : Category := ⟨"Walking", n⟩

/-- Example student Bert: preferences Cooking, Reading, Walking. -/
def exBert (c r w : Nat) : Student := ⟨"Bert", [exCooking c, exReading r, exWalking w], []⟩

/-- Example student Suze: preferences Walking, Cooking. -/
def exSuze (c w : Nat) : Student := ⟨"Suze", [exWalking w, exCooking c], []⟩

/-- Example student Kate: preferences Walking, Reading. -/
def exKate (r w : Nat) : Student := ⟨"Kate", [exWalking w, exReading r], []⟩

/-- Example student Harry: preference Walking, excludes Cooking. -/
def exHarry (c w : Nat) : Student := ⟨"Harry", [exWalking w], [exCooking c]⟩

/-- Example student Lisa: no preferences. -/
def exLisa : Student := ⟨"Lisa", [], []⟩

/-- Example student list in caller order (Bert, Suze, Kate, Harry, Lisa). -/
def exStudents (c r w : Nat) : List Student :=
  [exBert c r w, exSuze c w, exKate r w, exHarry c w, exLisa]

/-- Example category list (Cooking, Reading, Walking). -/
def exCats (c r w : Nat) : List Category :=
  [exCooking c, exReading r, exWalking w]

/-- Shuffle oracle realizing the permutation of claim C8: ranks Kate 0,
Harry 1, Bert 2, Suze 3, Lisa 4 on the example student list. -/
def c8perm : List Student → List Student
  | [a, b, c, d, e] => [c, d, a, b, e]
  | l => l

/-- Random source of claim C8: the stated permutation, index draws all zero. -/
def c8rng : Rng := ⟨c8perm, [0, 0]⟩

/-- Random source whose shuffle is the identity permutation. -/
def idRng : Rng := ⟨id, []⟩

/-- Category A (capacity 1) of the C4 measure counterexample. -/
def exCatA : Category := ⟨"A", 1⟩

/-- Category X (capacity 0) of the C4 measure counterexample. -/
def exCatX : Category := ⟨"X", 0⟩

/-- Counterexample student s: preferences X then A. -/
def exS : Student := ⟨"s", [exCatX, exCatA], []⟩

/-- Counterexample student t: six preference entries, all A. -/
def exT : Student := ⟨"t", [exCatA, exCatA, exCatA, exCatA, exCatA, exCatA], []⟩

/-- Initial deferred-acceptance loop state of `match_students [exS, exT]` with
the identity shuffle. -/
def exC4state : List OrderedStudent × PMap × List OrderedStudent :=
  (draw_order [exS, exT] idRng, [], [])

/-- «Ghost» category of the C2 counterexample: declared capacity 0, mentioned
only in preferences, absent from the supplied category list. -/
def ghostCat : Category := ⟨"Ghost", 0⟩

/-- First student preferring the ghost category. -/
def exG1 : Student := ⟨"g1", [ghostCat], []⟩

/-- Second student preferring the ghost category. -/
def exG2 : Student := ⟨"g2", [ghostCat], []⟩

/-! ### Association-list lemmas -/

theorem lookupA_eq_none {α : Type} (m : List (String × α)) (k : String)
    (h : k ∉ m.map Prod.fst) : lookupA m k = none := by
  induction m with
  | nil => rfl
  | cons p rest ih =>
    have h1 : p.1 ≠ k := fun hh => h (by simp [← hh])
    have h2 : k ∉ rest.map Prod.fst := fun hm => h (by simp [hm])
    simp [lookupA, h1, ih h2]

theorem lookupA_pushA_self {α : Type} (m : List (String × List α)) (k : String) (s : α) :
    lookupA (pushA m k s) k = some (((lookupA m k).getD []) ++ [s]) := by
  induction m with
  | nil => simp [pushA, lookupA]
  | cons p rest ih =>
    rcases p with ⟨k0, l⟩
    by_cases hp : k0 = k
    · subst hp; simp [pushA, lookupA]
    · simp [pushA, lookupA, hp, ih]

theorem lookupA_pushA_ne {α : Type} (m : List (String × List α)) (k k' : String) (s : α)
    (h : k' ≠ k) : lookupA (pushA m k s) k' = lookupA m k' := by
  induction m with
  | nil => simp [pushA, lookupA, Ne.symm h]
  | cons p rest ih =>
    rcases p with ⟨k0, l⟩
    by_cases hp : k0 = k
    · subst hp; simp [pushA, lookupA, Ne.symm h]
    · simp [pushA, lookupA, hp, ih]

theorem lookupA_setA_self {α : Type} (m : List (String × α)) (k : String) (v : α) :
    lookupA (setA m k v) k = some v := by
  induction m with
  | nil => simp [setA, lookupA]
  | cons p rest ih =>
    rcases p with ⟨k0, v0⟩
    by_cases hp : k0 = k
    · subst hp; simp [setA, lookupA]
    · simp [setA, lookupA, hp, ih]

theorem lookupA_setA_ne {α : Type} (m : List (String × α)) (k k' : String) (v : α)
    (h : k' ≠ k) : lookupA (setA m k v) k' = lookupA m k' := by
  induction m with
  | nil => simp [setA, lookupA, Ne.symm h]
  | cons p rest ih =>
    rcases p with ⟨k0, v0⟩
    by_cases hp : k0 = k
    · subst hp; simp [setA, lookupA, Ne.symm h]
    · simp [setA, lookupA, hp, ih]

theorem lookupA_removeA_ne {α : Type} (m : List (String × α)) (k k' : String)
    (h : k' ≠ k) : lookupA (removeA m k) k' = lookupA m k' := by
  induction m with
  | nil => simp [removeA]
  | cons p rest ih =>
    rcases p with ⟨k0, v0⟩
    by_cases hp : k0 = k
    · subst hp; simp [removeA, lookupA, Ne.symm h]
    · simp [removeA, lookupA, hp, ih]

theorem lookupA_removeA_self {α : Type} (m : List (String × α)) (k : String)
    (h : keysND m) : lookupA (removeA m k) k = none := by
  induction m with
  | nil => rfl
  | cons p rest ih =>
    rcases p with ⟨k0, v0⟩
    have hnd := List.nodup_cons.mp h
    by_cases hp : k0 = k
    · subst hp
      simp only [removeA, beq_self_eq_true, if_true]
      exact lookupA_eq_none rest k0 (by simpa using hnd.1)
    · simp [removeA, lookupA, hp, ih hnd.2]

/-! ### Key-uniqueness preservation -/

theorem keysND_nil {α : Type} : keysND ([] : List (String × α)) := by
  simp [keysND]

theorem lookupA_ne_none_of_mem {α : Type} (m : List (String × α)) (k : String)
    (h : k ∈ m.map Prod.fst) : lookupA m k ≠ none := by
  induction m with
  | nil => simp at h
  | cons p rest ih =>
    by_cases hp : p.1 = k
    · simp [lookupA, hp]
    · have hcons : k ∈ p.1 :: rest.map Prod.fst := by
        rcases p with ⟨k0, v0⟩
        simpa using h
      have : k ∈ rest.map Prod.fst := by
        rcases List.mem_cons.mp hcons with h1 | h1
        · exact absurd h1.symm hp
        · exact h1
      simpa [lookupA, hp] using ih this

theorem keys_pushA {α : Type} (m : List (String × List α)) (k : String) (s : α) :
    (k ∈ m.map Prod.fst ∧ (pushA m k s).map Prod.fst = m.map Prod.fst) ∨
    (k ∉ m.map Prod.fst ∧ (pushA m k s).map Prod.fst = m.map Prod.fst ++ [k]) := by
  induction m with
  | nil => right; exact ⟨by simp, by simp [pushA]⟩
  | cons p rest ih =>
    rcases p with ⟨k0, l⟩
    by_cases hp : k0 = k
    · left; subst hp; exact ⟨by simp, by simp [pushA]⟩
    · rcases ih with ⟨h1, h2⟩ | ⟨h1, h2⟩
      · left
        exact ⟨by simp [h1], by simp [pushA, hp, h2]⟩
      · right
        constructor
        · intro hmem
          rw [List.map_cons] at hmem
          rcases List.mem_cons.mp hmem with hh | hh
          · exact hp hh.symm
          · exact h1 hh
        · simp [pushA, hp, h2]

theorem keys_setA {α : Type} (m : List (String × α)) (k : String) (v : α) :
    (k ∈ m.map Prod.fst ∧ (setA m k v).map Prod.fst = m.map Prod.fst) ∨
    (k ∉ m.map Prod.fst ∧ (setA m k v).map Prod.fst = m.map Prod.fst ++ [k]) := by
  induction m with
  | nil => right; exact ⟨by simp, by simp [setA]⟩
  | cons p rest ih =>
    rcases p with ⟨k0, v0⟩
    by_cases hp : k0 = k
    · left; subst hp; exact ⟨by simp, by simp [setA]⟩
    · rcases ih with ⟨h1, h2⟩ | ⟨h1, h2⟩
      · left
        exact ⟨by simp [h1], by simp [setA, hp, h2]⟩
      · right
        constructor
        · intro hmem
          rw [List.map_cons] at hmem
          rcases List.mem_cons.mp hmem with hh | hh
          · exact hp hh.symm
          · exact h1 hh
        · simp [setA, hp, h2]

theorem keysND_pushA {α : Type} (m : List (String × List α)) (k : String) (s : α)
    (h : keysND m) : keysND (pushA m k s) := by
  rcases keys_pushA m k s with ⟨_, h2⟩ | ⟨h1, h2⟩
  · simpa [keysND, h2] using h
  · simp only [keysND, h2]
    exact List.Nodup.append h (by simp) (by simpa [List.disjoint_right] using h1)

theorem keysND_setA {α : Type} (m : List (String × α)) (k : String) (v : α)
    (h : keysND m) : keysND (setA m k v) := by
  rcases keys_setA m k v with ⟨_, h2⟩ | ⟨h1, h2⟩
  · simpa [keysND, h2] using h
  · simp only [keysND, h2]
    exact List.Nodup.append h (by simp) (by simpa [List.disjoint_right] using h1)

theorem removeA_sublist {α : Type} (m : List (String × α)) (k : String) :
    List.Sublist (removeA m k) m := by
  induction m with
  | nil => simp [removeA]
  | cons p rest ih =>
    rcases p with ⟨k0, v0⟩
    by_cases hp : k0 = k
    · subst hp
      simp only [removeA, beq_self_eq_true, if_true]
      exact List.sublist_cons_self (k0, v0) rest
    · have hb : ((k0 == k) = true) = False := by simp [hp]
      simp only [removeA, hb, if_false]
      exact List.Sublist.cons₂ (k0, v0) ih

theorem keysND_removeA {α : Type} (m : List (String × α)) (k : String)
    (h : keysND m) : keysND (removeA m k) := by
  exact List.Nodup.sublist (List.Sublist.map Prod.fst (removeA_sublist m k)) h

theorem keysND_ensureKey {α : Type} (m : List (String × List α)) (k : String)
    (h : keysND m) : keysND (ensureKey m k) := by
  unfold ensureKey
  cases hl : lookupA m k with
  | some v => exact h
  | none =>
    have hnm : k ∉ m.map Prod.fst := fun hmem => lookupA_ne_none_of_mem m k hmem hl
    simp only [keysND, List.map_append]
    exact List.Nodup.append h (by simp) (by simpa [List.disjoint_right] using hnm)

theorem keysND_mapVals {α β : Type} (f : α → β) (m : List (String × List α))
    (h : keysND m) : keysND (mapVals f m) := by
  simpa [keysND, mapVals, List.map_map, Function.comp] using h

/-! ### Held-table conservation lemmas -/

theorem heldAll_pushA_perm (m : PMap) (k : String) (s : OrderedStudent) :
    (heldAll (pushA m k s)).Perm (s :: heldAll m) := by
  induction m with
  | nil => simp [pushA, heldAll]
  | cons p rest ih =>
    rcases p with ⟨k0, l⟩
    by_cases hp : k0 = k
    · subst hp
      simp only [pushA, beq_self_eq_true, if_true, heldAll, List.map_cons, List.flatten_cons]
      rw [List.append_assoc, List.singleton_append]
      exact List.perm_middle
    · have hb : ((k0 == k) = true) = False := by simp [hp]
      simp only [pushA, hb, if_false, heldAll, List.map_cons, List.flatten_cons]
      exact (List.Perm.append_left l ih).trans List.perm_middle

theorem heldAll_setA_perm (m : PMap) (k : String) (l v : List OrderedStudent)
    (h : lookupA m k = some l) :
    (heldAll (setA m k v) ++ l).Perm (heldAll m ++ v) := by
  induction m with
  | nil => simp [lookupA] at h
  | cons p rest ih =>
    rcases p with ⟨k0, l0⟩
    by_cases hp : k0 = k
    · subst hp
      have hl : l0 = l := by simpa [lookupA] using h
      subst hl
      simp only [setA, beq_self_eq_true, if_true, heldAll, List.map_cons, List.flatten_cons]
      refine List.Perm.trans List.perm_append_comm ?_
      refine List.Perm.trans (List.Perm.append_left l0 List.perm_append_comm) ?_
      rw [List.append_assoc]
    · have hrest : lookupA rest k = some l := by simpa [lookupA, hp] using h
      have hb : ((k0 == k) = true) = False := by simp [hp]
      simp only [setA, hb, if_false, heldAll, List.map_cons, List.flatten_cons]
      rw [List.append_assoc, List.append_assoc]
      exact List.Perm.append_left l0 (ih hrest)

/-! ### Sort lemmas -/

theorem insertOS_perm (s : OrderedStudent) (l : List OrderedStudent) :
    (insertOS s l).Perm (s :: l) := by
  induction l with
  | nil => simp [insertOS]
  | cons t ts ih =>
    by_cases h : t.order < s.order
    · simp only [insertOS, if_pos h]
      exact (List.Perm.cons t ih).trans (List.Perm.swap s t ts)
    · simp [insertOS, h]

theorem sortOS_perm (l : List OrderedStudent) : (sortOS l).Perm l := by
  induction l with
  | nil => simp [sortOS]
  | cons s rest ih =>
    exact (insertOS_perm s (sortOS rest)).trans (List.Perm.cons s ih)

theorem mem_insertOS (s x : OrderedStudent) (l : List OrderedStudent) :
    x ∈ insertOS s l ↔ x = s ∨ x ∈ l := by
  rw [List.Perm.mem_iff (insertOS_perm s l)]
  simp

theorem insertOS_pairwise (s : OrderedStudent) (l : List OrderedStudent)
    (h : List.Pairwise (fun a b => a.order ≤ b.order) l) :
    List.Pairwise (fun a b => a.order ≤ b.order) (insertOS s l) := by
  induction l with
  | nil => simp [insertOS]
  | cons t ts ih =>
    rcases List.pairwise_cons.mp h with ⟨ht, hts⟩
    by_cases hlt : t.order < s.order
    · simp only [insertOS, if_pos hlt]
      refine List.pairwise_cons.mpr ⟨?_, ih hts⟩
      intro x hx
      rcases (mem_insertOS s x ts).mp hx with h1 | h1
      · subst h1; exact Nat.le_of_lt hlt
      · exact ht x h1
    · simp only [insertOS, if_neg hlt]
      have hle : s.order ≤ t.order := Nat.le_of_not_lt hlt
      refine List.pairwise_cons.mpr ⟨?_, h⟩
      intro x hx
      rcases List.mem_cons.mp hx with h1 | h1
      · subst h1; exact hle
      · exact hle.trans (ht x h1)

theorem sortOS_pairwise (l : List OrderedStudent) :
    List.Pairwise (fun a b => a.order ≤ b.order) (sortOS l) := by
  induction l with
  | nil => simp [sortOS]
  | cons s rest ih => exact insertOS_pairwise s (sortOS rest) ih

/-! ### Identity-projection multiset lemmas -/

theorem pairsM_nil : pairsM [] = 0 := rfl

theorem pairsM_cons (x : OrderedStudent) (l : List OrderedStudent) :
    pairsM (x :: l) = {pairOf x} + pairsM l := by
  simp only [pairsM, List.map_cons]
  rw [Multiset.singleton_add, Multiset.cons_coe]

theorem pairsM_append (l₁ l₂ : List OrderedStudent) :
    pairsM (l₁ ++ l₂) = pairsM l₁ + pairsM l₂ := by
  simp only [pairsM, List.map_append]
  rw [← Multiset.coe_add]

theorem pairsM_perm {l₁ l₂ : List OrderedStudent} (h : l₁.Perm l₂) : pairsM l₁ = pairsM l₂ :=
  Multiset.coe_eq_coe.mpr (h.map pairOf)

theorem spairsM_cons (x : Student) (l : List Student) :
    spairsM (x :: l) = {spairOf x} + spairsM l := by
  simp only [spairsM, List.map_cons]
  rw [Multiset.singleton_add, Multiset.cons_coe]

/-! ### Truncation conservation -/

theorem truncate_held_perm (cats : List Category) : ∀ placed : PMap,
    (heldAll (truncate_categories placed cats).1 ++ (truncate_categories placed cats).2).Perm
      (heldAll placed) := by
  induction cats with
  | nil =>
    intro placed
    simp [truncate_categories]
  | cons c cs ih =>
    intro placed
    cases hl : lookupA placed c.name with
    | none => simpa [truncate_categories, hl] using ih placed
    | some l =>
      by_cases hcap : c.max_placements < l.length
      · simp only [truncate_categories, hl, if_pos hcap]
        have hsp : (heldAll (setA placed c.name ((sortOS l).take c.max_placements)) ++ l).Perm
            (heldAll placed ++ (sortOS l).take c.max_placements) :=
          heldAll_setA_perm placed c.name l ((sortOS l).take c.max_placements) hl
        have ihp := ih (setA placed c.name ((sortOS l).take c.max_placements))
        have hjoin : ((heldAll (setA placed c.name ((sortOS l).take c.max_placements)) ++
            (sortOS l).drop c.max_placements) ++ (sortOS l).take c.max_placements).Perm
            (heldAll placed ++ (sortOS l).take c.max_placements) := by
          rw [List.append_assoc]
          refine List.Perm.trans
            (List.Perm.append_left _ (List.perm_append_comm)) ?_
          rw [List.take_append_drop]
          exact (List.Perm.append_left _ (sortOS_perm l)).trans hsp
        have hcancel :
            (heldAll (setA placed c.name ((sortOS l).take c.max_placements)) ++
              (sortOS l).drop c.max_placements).Perm (heldAll placed) :=
          (List.perm_append_right_iff ((sortOS l).take c.max_placements)).mp hjoin
        refine List.Perm.trans ?_ hcancel
        refine List.Perm.trans
          (List.Perm.append_left _ (List.perm_append_comm)) ?_
        rw [← List.append_assoc]
        exact List.Perm.append_right _ ihp
      · simp only [truncate_categories, hl, if_neg hcap]
        exact ih placed

/-! ### Placement-pass conservation -/

theorem place_students_pairs : ∀ (us : List OrderedStudent) (placed : PMap)
    (notP : List OrderedStudent),
    pairsM (heldAll (place_students us placed notP).1) +
      pairsM ((place_students us placed notP).2)
    = pairsM (heldAll placed) + pairsM notP + pairsM us := by
  intro us
  induction us with
  | nil => intro placed notP; simp [place_students, pairsM_nil]
  | cons s rest ih =>
    intro placed notP
    cases hs : s.preferences with
    | nil =>
      simp only [place_students, hs]
      rw [ih placed (notP ++ [s])]
      rw [pairsM_append, pairsM_cons, pairsM_cons, pairsM_nil]
      simp [add_comm, add_left_comm, add_assoc]
    | cons c prefs =>
      by_cases hex : excludesCat s.exclude c.name
      · simp only [place_students, hs, if_pos hex]
        have hih := ih placed (notP ++ [(⟨s.name, prefs, s.exclude, s.order⟩ : OrderedStudent)])
        rw [hih]
        rw [pairsM_append, pairsM_cons, pairsM_cons, pairsM_nil]
        have hpe : pairOf (⟨s.name, prefs, s.exclude, s.order⟩ : OrderedStudent) = pairOf s := rfl
        rw [hpe]
        simp [add_comm, add_left_comm, add_assoc]
      · simp only [place_students, hs, if_neg hex]
        have hih := ih (pushA placed c.name
          (⟨s.name, prefs, s.exclude, s.order⟩ : OrderedStudent)) notP
        rw [hih]
        rw [pairsM_perm (heldAll_pushA_perm placed c.name
          (⟨s.name, prefs, s.exclude, s.order⟩ : OrderedStudent))]
        rw [pairsM_cons, pairsM_cons]
        have hpe : pairOf (⟨s.name, prefs, s.exclude, s.order⟩ : OrderedStudent) = pairOf s := rfl
        rw [hpe]
        simp [add_comm, add_left_comm, add_assoc]

/-! ### Residual-assignment conservation -/

theorem assignRandomGo_held_perm : ∀ (ns : List OrderedStudent) (placed : PMap)
    (cats : List Category) (draws : List Nat),
    (heldAll (assignRandomGo ns placed cats draws).2.1 ++
      (assignRandomGo ns placed cats draws).1).Perm (heldAll placed ++ ns) := by
  intro ns
  induction ns with
  | nil => intro placed cats draws; simp [assignRandomGo]
  | cons s rest ih =>
    intro placed cats draws
    cases ho : openCats placed cats s with
    | nil =>
      simp only [assignRandomGo, ho]
      have ihp := ih placed cats draws
      exact List.perm_middle.trans ((List.Perm.cons s ihp).trans List.perm_middle.symm)
    | cons c0 cs =>
      simp only [assignRandomGo, ho]
      have ihp := ih (pushA placed
        (((c0 :: cs).getD (draws.headD 0 % (cs.length + 1)) c0).name) s) cats draws.tail
      refine List.Perm.trans ihp ?_
      have hpp := heldAll_pushA_perm placed
        (((c0 :: cs).getD (draws.headD 0 % (cs.length + 1)) c0).name) s
      refine List.Perm.trans (List.Perm.append_right rest hpp) ?_
      exact List.perm_middle.symm

/-! ### Measure lemmas -/

theorem wmass_cons (s : OrderedStudent) (l : List OrderedStudent) :
    wmass (s :: l) = s.preferences.length + 1 + wmass l := by
  simp [wmass, prefMass]
  omega

theorem wmass_append (l₁ l₂ : List OrderedStudent) :
    wmass (l₁ ++ l₂) = wmass l₁ + wmass l₂ := by
  simp [wmass, prefMass]
  omega

theorem wmass_perm {l₁ l₂ : List OrderedStudent} (h : l₁.Perm l₂) : wmass l₁ = wmass l₂ := by
  have h1 : (l₁.map (fun s => s.preferences.length)).sum
      = (l₂.map (fun s => s.preferences.length)).sum :=
    (h.map (fun s => s.preferences.length)).sum_eq
  have h2 : l₁.length = l₂.length := h.length_eq
  simp [wmass, prefMass, h1, h2]

theorem phi_eq (u : List OrderedStudent) (m : PMap) :
    phi u m = wmass u + wmass (heldAll m) := by
  simp [phi, wmass]
  omega

theorem place_students_mass : ∀ (us : List OrderedStudent) (placed : PMap)
    (notP : List OrderedStudent),
    wmass (heldAll (place_students us placed notP).1) + us.length
      ≤ wmass (heldAll placed) + wmass us := by
  intro us
  induction us with
  | nil => intro placed notP; simp [place_students]
  | cons s rest ih =>
    intro placed notP
    cases hs : s.preferences with
    | nil =>
      simp only [place_students, hs]
      have := ih placed (notP ++ [s])
      rw [wmass_cons]
      simp only [List.length_cons]
      omega
    | cons c prefs =>
      by_cases hex : excludesCat s.exclude c.name
      · simp only [place_students, hs, if_pos hex]
        have := ih placed (notP ++ [⟨s.name, prefs, s.exclude, s.order⟩])
        rw [wmass_cons]
        simp only [List.length_cons, hs]
        omega
      · simp only [place_students, hs, if_neg hex]
        have hih := ih (pushA placed c.name
          (⟨s.name, prefs, s.exclude, s.order⟩ : OrderedStudent)) notP
        have hpp : wmass (heldAll (pushA placed c.name
            (⟨s.name, prefs, s.exclude, s.order⟩ : OrderedStudent)))
            = wmass (heldAll placed) + (prefs.length + 1) := by
          rw [wmass_perm (heldAll_pushA_perm placed c.name
            (⟨s.name, prefs, s.exclude, s.order⟩ : OrderedStudent))]
          rw [wmass_cons]
          dsimp only
          omega
        rw [hpp] at hih
        rw [wmass_cons]
        simp only [List.length_cons, hs, List.length_cons]
        omega

theorem truncate_mass (placed : PMap) (cats : List Category) :
    wmass (heldAll (truncate_categories placed cats).1) +
      wmass ((truncate_categories placed cats).2) = wmass (heldAll placed) := by
  have := wmass_perm (truncate_held_perm cats placed)
  rwa [wmass_append] at this

theorem phi_dec (cats : List Category) (us : List OrderedStudent) (p : PMap)
    (n : List OrderedStudent) (h : us ≠ []) :
    phi (da_step cats (us, p, n)).1 (da_step cats (us, p, n)).2.1 < phi us p := by
  have hm := place_students_mass us p n
  have ht := truncate_mass (place_students us p n).1 cats
  have hlen : 1 ≤ us.length := by
    cases us with
    | nil => exact absurd rfl h
    | cons a l => simp
  simp only [da_step]
  rw [phi_eq, phi_eq]
  omega

/-! ### Deferred-acceptance loop lemmas -/

theorem truncate_pairs (placed : PMap) (cats : List Category) :
    pairsM (heldAll (truncate_categories placed cats).1) +
      pairsM ((truncate_categories placed cats).2) = pairsM (heldAll placed) := by
  have := pairsM_perm (truncate_held_perm cats placed)
  rwa [pairsM_append] at this

theorem da_loop_pairs (cats : List Category) : ∀ (fuel : Nat) (us : List OrderedStudent)
    (p : PMap) (n : List OrderedStudent), phi us p < fuel →
    pairsM (heldAll (da_loop cats fuel us p n).1) + pairsM ((da_loop cats fuel us p n).2)
      = pairsM (heldAll p) + pairsM n + pairsM us := by
  intro fuel
  induction fuel with
  | zero => intro us p n h; omega
  | succ f ih =>
    intro us p n h
    by_cases he : us.isEmpty
    · have hus : us = [] := by
        cases us with
        | nil => rfl
        | cons a l => simp [List.isEmpty] at he
      subst hus
      simp [da_loop, pairsM_nil]
    · have hne : us ≠ [] := by
        intro hh; subst hh; simp at he
      have hdec := phi_dec cats us p n hne
      have hlt : phi (da_step cats (us, p, n)).1 (da_step cats (us, p, n)).2.1 < f := by omega
      have hih := ih (da_step cats (us, p, n)).1 (da_step cats (us, p, n)).2.1
        (da_step cats (us, p, n)).2.2 hlt
      simp only [da_loop, he, Bool.false_eq_true, if_false]
      rw [hih]
      have hplace := place_students_pairs us p n
      have htr := truncate_pairs (place_students us p n).1 cats
      simp only [da_step]
      rw [← hplace]
      have : pairsM (heldAll (truncate_categories (place_students us p n).1 cats).1) +
          pairsM (place_students us p n).2 +
          pairsM ((truncate_categories (place_students us p n).1 cats).2)
          = pairsM (heldAll (place_students us p n).1) + pairsM ((place_students us p n).2) := by
        rw [← htr]
        simp [add_comm, add_left_comm, add_assoc]
      rw [this]

theorem da_loop_last (cats : List Category) : ∀ (fuel : Nat) (us : List OrderedStudent)
    (p : PMap) (n : List OrderedStudent),
    (da_loop cats fuel us p n).1 = p ∨
      ∃ q, (da_loop cats fuel us p n).1 = (truncate_categories q cats).1 := by
  intro fuel
  induction fuel with
  | zero => intro us p n; left; rfl
  | succ f ih =>
    intro us p n
    by_cases he : us.isEmpty
    · left; simp [da_loop, he]
    · simp only [da_loop, he, Bool.false_eq_true, if_false]
      rcases ih (da_step cats (us, p, n)).1 (da_step cats (us, p, n)).2.1
        (da_step cats (us, p, n)).2.2 with h1 | ⟨q, h1⟩
      · right
        refine ⟨(place_students us p n).1, ?_⟩
        rw [h1]
        rfl
      · right; exact ⟨q, h1⟩

theorem phi_pos_of_ne_nil (us : List OrderedStudent) (p : PMap) (h : us ≠ []) :
    1 ≤ phi us p := by
  cases us with
  | nil => exact absurd rfl h
  | cons a l => simp [phi, prefMass]; omega

theorem stepIter_reaches_empty (cats : List Category) : ∀ (N : Nat)
    (st : List OrderedStudent × PMap × List OrderedStudent), phi st.1 st.2.1 ≤ N →
    ∃ k, (stepIter cats k st).1 = [] := by
  intro N
  induction N with
  | zero =>
    intro st h
    by_cases hst : st.1 = []
    · exact ⟨0, hst⟩
    · have := phi_pos_of_ne_nil st.1 st.2.1 hst
      omega
  | succ n ih =>
    intro st h
    by_cases hst : st.1 = []
    · exact ⟨0, hst⟩
    · have hdec := phi_dec cats st.1 st.2.1 st.2.2 hst
      have hle : phi (da_step cats st).1 (da_step cats st).2.1 ≤ n := by
        have hsame : da_step cats (st.1, st.2.1, st.2.2) = da_step cats st := rfl
        rw [hsame] at hdec
        omega
      rcases ih (da_step cats st) hle with ⟨k, hk⟩
      exact ⟨k + 1, hk⟩

/-! ### Result-assembly lemmas -/

theorem number_students_pairs : ∀ (l : List Student) (i : Nat),
    pairsM (number_students l i) = spairsM l := by
  intro l
  induction l with
  | nil => intro i; rfl
  | cons s rest ih =>
    intro i
    rw [number_students, pairsM_cons, spairsM_cons, ih (i + 1)]
    rfl

theorem mapVals_flatten {α β : Type} (f : α → β) (m : List (String × List α)) :
    ((mapVals f m).map (fun p => p.2)).flatten = ((m.map (fun p => p.2)).flatten).map f := by
  induction m with
  | nil => rfl
  | cons p rest ih =>
    simp only [mapVals, List.map_cons, List.flatten_cons, List.map_append]
    rw [← ih]
    rfl

theorem names_multiset_of_pairs (l : List OrderedStudent) :
    ((l.map (fun r => r.name) : List String) : Multiset String)
      = Multiset.map Prod.fst (pairsM l) := by
  simp only [pairsM, Multiset.map_coe, List.map_map]
  rfl

theorem snames_multiset_of_pairs (l : List Student) :
    ((l.map (fun s => s.name) : List String) : Multiset String)
      = Multiset.map Prod.fst (spairsM l) := by
  simp only [spairsM, Multiset.map_coe, List.map_map]
  rfl

/-- Claim C1: every call to `match_students` conserves the students: the names
occurring across the union of the placed lists of the returned `MatchResult`
together with its `not_placable` list form exactly the multiset of input
student names — no student is duplicated, dropped, or listed in both places.
The hypothesis is the §6 contract of the caller-supplied shuffle: it returns a
permutation of its input. -/
theorem C1_match_students_conservation (students : List Student) (cats : List Category)
    (rng : Rng) (hperm : (rng.perm students).Perm students) :
    ((((match_students students cats rng).placed.map (fun p => p.2)).flatten ++
        (match_students students cats rng).not_placable).map (fun s => s.name)).Perm
      (students.map (fun s => s.name)) := by
  have hmain : ((((match_students students cats rng).placed.map (fun p => p.2)).flatten ++
      (match_students students cats rng).not_placable).map (fun s => s.name)).Perm
      (((rng.perm students).map (fun s => s.name))) := by
    simp only [match_students, match_students_rng, MatchResult.fromParts, assign_random]
    rw [mapVals_flatten]
    rw [← List.map_append]
    have hname : ∀ r : OrderedStudent, (OrderedStudent.toStudent r).name = r.name :=
      fun r => rfl
    rw [List.map_map]
    have hcomp : ((fun s : Student => s.name) ∘ OrderedStudent.toStudent)
        = fun r : OrderedStudent => r.name := by
      funext r; rfl
    rw [hcomp]
    set u0 := draw_order students rng with hu0
    set lp := da_loop cats (phi u0 [] + 1) u0 [] [] with hlp
    set ar := assignRandomGo (sortOS lp.2) lp.1 cats rng.draws with har
    have hrec : (heldAll ar.2.1 ++ ar.1).Perm (heldAll lp.1 ++ lp.2) := by
      refine (assignRandomGo_held_perm (sortOS lp.2) lp.1 cats rng.draws).trans ?_
      exact List.Perm.append_left _ (sortOS_perm lp.2)
    refine (hrec.map (fun r => r.name)).trans ?_
    refine Multiset.coe_eq_coe.mp ?_
    rw [names_multiset_of_pairs, snames_multiset_of_pairs]
    rw [pairsM_append]
    have hloop := da_loop_pairs cats (phi u0 [] + 1) u0 [] [] (by omega)
    rw [← hlp] at hloop
    rw [hloop]
    have hu : pairsM u0 = spairsM (rng.perm students) := by
      rw [hu0, draw_order]
      exact number_students_pairs (rng.perm students) 0
    rw [hu]
    simp [pairsM_nil, heldAll]
  exact hmain.trans (hperm.map (fun s => s.name))

/-- Witness for C1 at the repository's example instance with the identity
shuffle. -/
theorem C1_match_students_conservation_witness :
    (idRng.perm (exStudents 3 2 1)).Perm (exStudents 3 2 1) ∧
    ((((match_students (exStudents 3 2 1) (exCats 3 2 1) idRng).placed.map
        (fun p => p.2)).flatten ++
        (match_students (exStudents 3 2 1) (exCats 3 2 1) idRng).not_placable).map
        (fun s => s.name)).Perm ((exStudents 3 2 1).map (fun s => s.name)) :=
  ⟨List.Perm.refl _,
    C1_match_students_conservation (exStudents 3 2 1) (exCats 3 2 1) idRng (List.Perm.refl _)⟩

/-- Claim C4, counterexample to the stated measure: in the run of
`match_students [exS, exT]` (identity shuffle, categories A(1), X(0)) the
deferred-acceptance loop reaches, after one iteration, a non-empty unplaced
batch of preference mass 1, and the next iteration produces an unplaced batch
of preference mass 5: the total number of remaining preference entries across
unplaced students increases rather than strictly decreasing. -/
theorem C4_measure_counterexample :
    (stepIter [exCatA, exCatX] 1 exC4state).1 ≠ [] ∧
    prefMass (stepIter [exCatA, exCatX] 1 exC4state).1 = 1 ∧
    prefMass (stepIter [exCatA, exCatX] 2 exC4state).1 = 5 := by
  decide

/-- Claim C4 (amended): the deferred-acceptance loop of `match_students`
terminates for every finite input, because the combined measure `phi` —
remaining preference entries plus student count, over the unplaced batch
together with the tentatively held students — strictly decreases on every
iteration with a non-empty unplaced batch, so iterating `da_step` always
reaches an empty unplaced batch. -/
theorem C4_da_loop_terminates :
    (∀ (cats : List Category) (us : List OrderedStudent) (p : PMap)
      (n : List OrderedStudent), us ≠ [] →
      phi (da_step cats (us, p, n)).1 (da_step cats (us, p, n)).2.1 < phi us p) ∧
    (∀ (cats : List Category) (st : List OrderedStudent × PMap × List OrderedStudent),
      ∃ k, (stepIter cats k st).1 = []) :=
  ⟨fun cats us p n h => phi_dec cats us p n h,
    fun cats st => stepIter_reaches_empty cats (phi st.1 st.2.1) st (Nat.le_refl _)⟩

/-- Witness for C4 at the counterexample instance itself: the measure drops
across the second loop iteration and the loop empties. -/
theorem C4_da_loop_terminates_witness :
    (stepIter [exCatA, exCatX] 1 exC4state).1 ≠ [] ∧
    phi (da_step [exCatA, exCatX] (stepIter [exCatA, exCatX] 1 exC4state)).1
        (da_step [exCatA, exCatX] (stepIter [exCatA, exCatX] 1 exC4state)).2.1
      < phi (stepIter [exCatA, exCatX] 1 exC4state).1
        (stepIter [exCatA, exCatX] 1 exC4state).2.1 ∧
    ∃ k, (stepIter [exCatA, exCatX] k exC4state).1 = [] :=
  ⟨by decide,
    C4_da_loop_terminates.1 [exCatA, exCatX] (stepIter [exCatA, exCatX] 1 exC4state).1
      (stepIter [exCatA, exCatX] 1 exC4state).2.1 (stepIter [exCatA, exCatX] 1 exC4state).2.2
      (by decide),
    C4_da_loop_terminates.2 [exCatA, exCatX] exC4state⟩

/-- Claim C9: `match_students` and `match_students_to_multiple_categories`
are deterministic: identical student lists, identical category lists, the same
shuffle permutation and the same uniform draw sequence yield identical
results. -/
theorem C9_deterministic (s₁ s₂ : List Student) (c₁ c₂ : List Category) (r₁ r₂ : Rng)
    (hs : s₁ = s₂) (hc : c₁ = c₂) (hperm : r₁.perm = r₂.perm) (hdraws : r₁.draws = r₂.draws) :
    match_students s₁ c₁ r₁ = match_students s₂ c₂ r₂ ∧
    match_students_to_multiple_categories s₁ c₁ r₁
      = match_students_to_multiple_categories s₂ c₂ r₂ := by
  subst hs; subst hc
  have hr : r₁ = r₂ := by
    cases r₁; cases r₂
    simp only at hperm hdraws
    rw [hperm, hdraws]
  subst hr
  exact ⟨rfl, rfl⟩

/-- Witness for C9 at the repository's example instance. -/
theorem C9_deterministic_witness :
    match_students (exStudents 3 2 1) (exCats 3 2 1) c8rng
      = match_students (exStudents 3 2 1) (exCats 3 2 1) c8rng ∧
    match_students_to_multiple_categories (exStudents 3 2 1) (exCats 3 2 1) c8rng
      = match_students_to_multiple_categories (exStudents 3 2 1) (exCats 3 2 1) c8rng :=
  C9_deterministic (exStudents 3 2 1) (exStudents 3 2 1) (exCats 3 2 1) (exCats 3 2 1)
    c8rng c8rng rfl rfl rfl rfl

/-- Claim C10: when the total capacity of the supplied categories is zero, the
round loop of `match_students_to_multiple_categories` never runs and the
result is completely empty — every supplied student is omitted, including
students that a matcher round would have reported not placable. -/
theorem C10_zero_capacity (students : List Student) (cats : List Category) (rng : Rng)
    (h : spotsOf cats = 0) :
    match_students_to_multiple_categories students cats rng
      = ⟨[], []⟩ := by
  simp [match_students_to_multiple_categories, h, multi_loop]

/-- Witness for C10: the example students with zero-capacity categories. -/
theorem C10_zero_capacity_witness :
    spotsOf (exCats 0 0 0) = 0 ∧
    match_students_to_multiple_categories (exStudents 0 0 0) (exCats 0 0 0) idRng
      = ⟨[], []⟩ :=
  ⟨by decide, C10_zero_capacity (exStudents 0 0 0) (exCats 0 0 0) idRng (by decide)⟩

/-! ### Orchestrator bookkeeping lemmas -/

theorem add_placed_notP (c : Category) : ∀ (ps : List Student) (students : List Student)
    (acc : MatchResult), (add_placed c students acc ps).2.not_placable = acc.not_placable := by
  intro ps
  induction ps with
  | nil => intro students acc; rfl
  | cons p rest ih => intro students acc; exact ih _ _

theorem merge_round_notP : ∀ (cats : List Category) (students : List Student)
    (acc : MatchResult) (np : List (String × List Student)),
    (merge_round cats students acc np).2.2.not_placable = acc.not_placable := by
  intro cats
  induction cats with
  | nil => intro students acc np; rfl
  | cons c cs ih =>
    intro students acc np
    cases hl : lookupA np c.name with
    | some ps =>
      simp only [merge_round, hl]
      rw [ih]
      rw [add_placed_notP]
    | none =>
      simp only [merge_round, hl]
      rw [ih]

theorem multi_loop_notP_false : ∀ (fuel : Nat) (students : List Student)
    (cats : List Category) (acc : MatchResult) (prev spots : Nat) (rng : Rng),
    (multi_loop fuel students cats acc prev spots false rng).not_placable
      = acc.not_placable := by
  intro fuel
  induction fuel with
  | zero => intro students cats acc prev spots rng; rfl
  | succ f ih =>
    intro students cats acc prev spots rng
    by_cases hg : 0 < spots ∧ spots < prev
    · simp only [multi_loop, if_pos hg, Bool.false_eq_true, if_false]
      rw [ih]
      exact merge_round_notP cats students acc (match_students_rng students cats rng).1.placed
    · simp only [multi_loop, if_neg hg]

/-- Claim C7: when the round loop of `match_students_to_multiple_categories`
executes at least once (positive total capacity below the `usize::MAX`
sentinel), the aggregate `not_placable` list equals the `not_placable` list of
the first round's `match_students` call; later rounds never touch it. -/
theorem C7_first_round_not_placable (students : List Student) (cats : List Category)
    (rng : Rng) (h1 : 0 < spotsOf cats) (h2 : spotsOf cats < USIZE_MAX) :
    (match_students_to_multiple_categories students cats rng).not_placable
      = (match_students students cats rng).not_placable := by
  simp only [match_students_to_multiple_categories, multi_loop, if_pos (And.intro h1 h2),
    Bool.true_eq_false, if_false]
  rw [multi_loop_notP_false]
  rfl

/-- Witness for C7 at the repository's example instance. -/
theorem C7_first_round_not_placable_witness :
    0 < spotsOf (exCats 3 2 1) ∧ spotsOf (exCats 3 2 1) < USIZE_MAX ∧
    (match_students_to_multiple_categories (exStudents 3 2 1) (exCats 3 2 1) c8rng).not_placable
      = (match_students (exStudents 3 2 1) (exCats 3 2 1) c8rng).not_placable :=
  ⟨by decide, by decide,
    C7_first_round_not_placable (exStudents 3 2 1) (exCats 3 2 1) c8rng (by decide) (by decide)⟩

/-- Claim C8 as stated is false on the code: with the stated permutation
(ranks Kate 0, Harry 1, Bert 2, Suze 3, Lisa 4) and capacities Cooking 3,
Reading 2, Walking 1, `match_students` places Kate — not Suze — in Walking
(rank 0 wins the contested Walking seat), and Kate therefore never appears in
Reading. -/
theorem C8_example_counterexample :
    ((lookupA (match_students (exStudents 3 2 1) (exCats 3 2 1) c8rng).placed
        "Walking").getD []).map (fun s => s.name) = ["Kate"] ∧
    ((lookupA (match_students (exStudents 3 2 1) (exCats 3 2 1) c8rng).placed
        "Reading").getD []).map (fun s => s.name) = ["Harry"] := by
  decide

/-- Claim C8 (amended): with ranks Kate 0, Harry 1, Bert 2, Suze 3, Lisa 4 and
index draws 0, `match_students` on the example instance returns
Walking→[Kate], Reading→[Harry], Cooking→[Bert, Suze, Lisa] and an empty
`not_placable` list. -/
theorem C8_example_result :
    ((lookupA (match_students (exStudents 3 2 1) (exCats 3 2 1) c8rng).placed
        "Walking").getD []).map (fun s => s.name) = ["Kate"] ∧
    ((lookupA (match_students (exStudents 3 2 1) (exCats 3 2 1) c8rng).placed
        "Reading").getD []).map (fun s => s.name) = ["Harry"] ∧
    ((lookupA (match_students (exStudents 3 2 1) (exCats 3 2 1) c8rng).placed
        "Cooking").getD []).map (fun s => s.name) = ["Bert", "Suze", "Lisa"] ∧
    (match_students (exStudents 3 2 1) (exCats 3 2 1) c8rng).not_placable = [] := by
  decide

/-! ### Capacity lemmas -/

theorem truncate_lookup_other : ∀ (cs : List Category) (p : PMap) (k : String),
    (∀ c' ∈ cs, c'.name ≠ k) → lookupA (truncate_categories p cs).1 k = lookupA p k := by
  intro cs
  induction cs with
  | nil => intro p k _; rfl
  | cons c rest ih =>
    intro p k h
    have hc : c.name ≠ k := h c (List.mem_cons_self c rest)
    have hrest : ∀ c' ∈ rest, c'.name ≠ k := fun c' hm => h c' (List.mem_cons_of_mem c hm)
    cases hl : lookupA p c.name with
    | none =>
      simp only [truncate_categories, hl]
      exact ih p k hrest
    | some l =>
      by_cases hcap : c.max_placements < l.length
      · simp only [truncate_categories, hl, if_pos hcap]
        rw [ih _ k hrest]
        exact lookupA_setA_ne p c.name k _ (fun hh => hc hh.symm)
      · simp only [truncate_categories, hl, if_neg hcap]
        exact ih p k hrest

theorem truncate_caps : ∀ (cats : List Category) (p : PMap),
    ((cats.map (fun c => c.name)).Nodup) → capsOK (truncate_categories p cats).1 cats := by
  intro cats
  induction cats with
  | nil => intro p _ c hc; simp at hc
  | cons c0 rest ih =>
    intro p h c hc
    rw [List.map_cons] at h
    have hnd := List.nodup_cons.mp h
    have hrestne : ∀ c' ∈ rest, c'.name ≠ c0.name := by
      intro c' hm hh
      exact hnd.1 (List.mem_map.mpr ⟨c', hm, hh⟩)
    rcases List.mem_cons.mp hc with hcc | hcc
    · subst hcc
      cases hl : lookupA p c.name with
      | none =>
        simp only [truncate_categories, hl]
        rw [truncate_lookup_other rest p c.name hrestne, hl]
        simp
      | some l =>
        by_cases hcap : c.max_placements < l.length
        · simp only [truncate_categories, hl, if_pos hcap]
          rw [truncate_lookup_other rest _ c.name hrestne]
          rw [lookupA_setA_self]
          simp only [Option.getD_some]
          have hlen : (sortOS l).length = l.length := (sortOS_perm l).length_eq
          simp [hlen]
        · simp only [truncate_categories, hl, if_neg hcap]
          rw [truncate_lookup_other rest p c.name hrestne, hl]
          simpa using Nat.le_of_not_lt hcap
    · cases hl : lookupA p c0.name with
      | none =>
        simp only [truncate_categories, hl]
        exact ih p hnd.2 c hcc
      | some l =>
        by_cases hcap : c0.max_placements < l.length
        · simp only [truncate_categories, hl, if_pos hcap]
          exact ih _ hnd.2 c hcc
        · simp only [truncate_categories, hl, if_neg hcap]
          exact ih p hnd.2 c hcc

theorem openCats_mem (placed : PMap) (cats : List Category) (s : OrderedStudent)
    (c : Category) (h : c ∈ openCats placed cats s) :
    c ∈ cats ∧ ((lookupA placed c.name).getD []).length < c.max_placements ∧
      excludesCat s.exclude c.name = false := by
  simp only [openCats, List.mem_filter] at h
  obtain ⟨⟨h1, h2⟩, h3⟩ := h
  refine ⟨h1, by simpa using h2, by simpa using h3⟩

theorem getD_mem_cons (c0 : Category) (cs : List Category) (i : Nat) :
    (c0 :: cs).getD i c0 ∈ c0 :: cs := by
  cases h : (c0 :: cs)[i]? with
  | none => simp [List.getD_eq_getElem?_getD, h]
  | some x =>
    have hm : x ∈ c0 :: cs := by
      have := List.getElem?_eq_some_iff.mp h
      rcases this with ⟨hlt, hget⟩
      rw [← hget]
      exact List.getElem_mem hlt
    simp [List.getD_eq_getElem?_getD, h, hm]

theorem lookupA_pushA_len (m : PMap) (k : String) (s : OrderedStudent) :
    ((lookupA (pushA m k s) k).getD []).length = ((lookupA m k).getD []).length + 1 := by
  rw [lookupA_pushA_self]
  simp

theorem assignRandomGo_caps : ∀ (ns : List OrderedStudent) (placed : PMap)
    (cats : List Category) (draws : List Nat),
    ((cats.map (fun c => c.name)).Nodup) → capsOK placed cats →
    capsOK (assignRandomGo ns placed cats draws).2.1 cats := by
  intro ns
  induction ns with
  | nil => intro placed cats draws _ hcaps; exact hcaps
  | cons s rest ih =>
    intro placed cats draws hnd hcaps
    cases ho : openCats placed cats s with
    | nil =>
      simp only [assignRandomGo, ho]
      exact ih placed cats draws hnd hcaps
    | cons c0 cs =>
      simp only [assignRandomGo, ho]
      refine ih _ cats draws.tail hnd ?_
      have hcmem : (c0 :: cs).getD (draws.headD 0 % (cs.length + 1)) c0 ∈ openCats placed cats s := by
        rw [ho]
        exact getD_mem_cons c0 cs _
      obtain ⟨hin, hlt, _⟩ := openCats_mem placed cats s _ hcmem
      intro c hc
      by_cases hk : c.name = ((c0 :: cs).getD (draws.headD 0 % (cs.length + 1)) c0).name
      · have hceq : c = (c0 :: cs).getD (draws.headD 0 % (cs.length + 1)) c0 :=
          List.inj_on_of_nodup_map hnd hc hin hk
        rw [hceq, lookupA_pushA_len]
        omega
      · rw [lookupA_pushA_ne _ _ _ _ hk]
        exact hcaps c hc

theorem lookupA_mapVals {α β : Type} (f : α → β) (m : List (String × List α)) (k : String) :
    lookupA (mapVals f m) k = (lookupA m k).map (fun l => l.map f) := by
  induction m with
  | nil => rfl
  | cons p rest ih =>
    by_cases hp : p.1 = k
    · simp [mapVals, lookupA, hp]
    · have ih' := ih
      simp only [mapVals] at ih'
      simp [mapVals, lookupA, hp, ih']

/-- Claim C2 as stated is false on the code: a category referenced only from a
student's preference list and absent from the supplied category list is never
truncated, so the slot named by it can appear in the output holding more
students than its declared `max_placements` (here: Ghost declares capacity 0
yet holds 2 students). -/
theorem C2_capacity_counterexample :
    ghostCat ∈ exG1.preferences ∧ ghostCat.max_placements = 0 ∧
    ghostCat.max_placements <
      ((lookupA (match_students [exG1, exG2] [] idRng).placed ghostCat.name).getD []).length := by
  decide

/-- Claim C2 (amended): for every category of the supplied category list
(whose names are distinct, per the data-model invariant), the output placed
list under that category's name never exceeds its `max_placements`. -/
theorem C2_capacity (students : List Student) (cats : List Category) (rng : Rng)
    (hnd : (cats.map (fun c => c.name)).Nodup) :
    ∀ c ∈ cats,
      ((lookupA (match_students students cats rng).placed c.name).getD []).length
        ≤ c.max_placements := by
  intro c hc
  simp only [match_students, match_students_rng, MatchResult.fromParts, assign_random]
  rw [lookupA_mapVals]
  set u0 := draw_order students rng with hu0
  set lp := da_loop cats (phi u0 [] + 1) u0 [] [] with hlp
  have hloopcaps : capsOK lp.1 cats := by
    rcases da_loop_last cats (phi u0 [] + 1) u0 [] [] with h1 | ⟨q, h1⟩
    · rw [← hlp] at h1
      rw [h1]
      intro c' _
      simp [lookupA]
    · rw [← hlp] at h1
      rw [h1]
      exact truncate_caps cats q hnd
  have hfinal := assignRandomGo_caps (sortOS lp.2) lp.1 cats rng.draws hnd hloopcaps
  have := hfinal c hc
  cases hl : lookupA (assignRandomGo (sortOS lp.2) lp.1 cats rng.draws).2.1 c.name with
  | none => simp
  | some l =>
    rw [hl] at this
    simpa using this

/-- Witness for C2 (amended) at the repository's example instance. -/
theorem C2_capacity_witness :
    ((exCats 3 2 1).map (fun c => c.name)).Nodup ∧
    ∀ c ∈ exCats 3 2 1,
      ((lookupA (match_students (exStudents 3 2 1) (exCats 3 2 1) c8rng).placed c.name).getD
        []).length ≤ c.max_placements :=
  ⟨by decide, C2_capacity (exStudents 3 2 1) (exCats 3 2 1) c8rng (by decide)⟩

/-! ### Truncation specification lemmas -/

theorem evPart_congr (placed placed' : PMap) (c : Category)
    (h : lookupA placed' c.name = lookupA placed c.name) : evPart placed' c = evPart placed c := by
  simp [evPart, h]

/-- Claim C5: one truncation pass leaves every listed category at or under
capacity unchanged; an over-capacity listed category keeps exactly the first
`max_placements` entries of its rank-sorted held list (the lowest ranks),
its evicted remainder is in ascending rank order and every kept student's rank
is at most every evicted student's rank; the returned eviction list is the
concatenation of the per-category remainders in category order.  Category
names are assumed distinct, per the data-model invariant. -/
theorem C5_truncate_spec : ∀ (cats : List Category) (placed : PMap),
    ((cats.map (fun c => c.name)).Nodup) →
    (∀ c ∈ cats,
      (((lookupA placed c.name).getD []).length ≤ c.max_placements →
        lookupA (truncate_categories placed cats).1 c.name = lookupA placed c.name) ∧
      (c.max_placements < ((lookupA placed c.name).getD []).length →
        lookupA (truncate_categories placed cats).1 c.name
          = some ((sortOS ((lookupA placed c.name).getD [])).take c.max_placements) ∧
        List.Pairwise (fun a b => a.order ≤ b.order) (evPart placed c) ∧
        ∀ x ∈ (sortOS ((lookupA placed c.name).getD [])).take c.max_placements,
          ∀ y ∈ evPart placed c, x.order ≤ y.order)) ∧
    (truncate_categories placed cats).2 = (cats.map (evPart placed)).flatten := by
  intro cats
  induction cats with
  | nil =>
    intro placed _
    exact ⟨fun c hc => absurd hc (by simp), by simp [truncate_categories]⟩
  | cons c0 cs ih =>
    intro placed h
    rw [List.map_cons] at h
    have hnd := List.nodup_cons.mp h
    have hrestne : ∀ c' ∈ cs, c'.name ≠ c0.name := by
      intro c' hm hh
      exact hnd.1 (List.mem_map.mpr ⟨c', hm, hh⟩)
    cases hl : lookupA placed c0.name with
    | none =>
      have hclaim := ih placed hnd.2
      constructor
      · intro c hc
        rcases List.mem_cons.mp hc with hcc | hcc
        · subst hcc
          constructor
          · intro _
            simp only [truncate_categories, hl]
            rw [truncate_lookup_other cs placed c.name hrestne, hl]
          · intro hlt
            rw [hl] at hlt
            simp at hlt
        · simpa only [truncate_categories, hl] using hclaim.1 c hcc
      · simp only [truncate_categories, hl]
        rw [hclaim.2]
        have he0 : evPart placed c0 = [] := by simp [evPart, hl]
        simp [he0]
    | some l =>
      by_cases hcap : c0.max_placements < l.length
      · have hclaim := ih (setA placed c0.name ((sortOS l).take c0.max_placements)) hnd.2
        have htransfer : ∀ c ∈ cs,
            lookupA (setA placed c0.name ((sortOS l).take c0.max_placements)) c.name
              = lookupA placed c.name := by
          intro c hc
          exact lookupA_setA_ne placed c0.name c.name _ (hrestne c hc)
        constructor
        · intro c hc
          rcases List.mem_cons.mp hc with hcc | hcc
          · subst hcc
            constructor
            · intro hle
              rw [hl] at hle
              simp only [Option.getD_some] at hle
              omega
            · intro _
              refine ⟨?_, ?_, ?_⟩
              · simp only [truncate_categories, hl, if_pos hcap]
                rw [truncate_lookup_other cs _ c.name hrestne]
                rw [lookupA_setA_self]
                simp
              · have : evPart placed c = (sortOS l).drop c.max_placements := by
                  simp [evPart, hl, hcap]
                rw [this]
                exact List.Pairwise.sublist (List.drop_sublist _ _) (sortOS_pairwise l)
              · have hev : evPart placed c = (sortOS l).drop c.max_placements := by
                  simp [evPart, hl, hcap]
                rw [hev, hl]
                simp only [Option.getD_some]
                have hsplit := List.pairwise_append.mp
                  (by rw [List.take_append_drop] ;
                      exact sortOS_pairwise l :
                    List.Pairwise (fun a b => a.order ≤ b.order)
                      ((sortOS l).take c.max_placements ++ (sortOS l).drop c.max_placements))
                exact hsplit.2.2
          · have hcs := hclaim.1 c hcc
            rw [htransfer c hcc] at hcs
            have hevc := evPart_congr placed
              (setA placed c0.name ((sortOS l).take c0.max_placements)) c (htransfer c hcc)
            rw [hevc] at hcs
            simpa only [truncate_categories, hl, if_pos hcap] using hcs
        · simp only [truncate_categories, hl, if_pos hcap]
          rw [hclaim.2]
          have he0 : evPart placed c0 = (sortOS l).drop c0.max_placements := by
            simp [evPart, hl, hcap]
          have hmapeq : cs.map (evPart (setA placed c0.name ((sortOS l).take c0.max_placements)))
              = cs.map (evPart placed) := by
            refine List.map_congr_left ?_
            intro c hc
            exact evPart_congr placed _ c (htransfer c hc)
          rw [hmapeq]
          simp [he0]
      · have hclaim := ih placed hnd.2
        constructor
        · intro c hc
          rcases List.mem_cons.mp hc with hcc | hcc
          · subst hcc
            constructor
            · intro _
              simp only [truncate_categories, hl, if_neg hcap]
              rw [truncate_lookup_other cs placed c.name hrestne]
              exact hl
            · intro hlt
              rw [hl] at hlt
              simp only [Option.getD_some] at hlt
              omega
          · simpa only [truncate_categories, hl, if_neg hcap] using hclaim.1 c hcc
        · simp only [truncate_categories, hl, if_neg hcap]
          rw [hclaim.2]
          have he0 : evPart placed c0 = [] := by simp [evPart, hl, hcap]
          simp [he0]

/-- Witness for C5 at the placement table of the repository truncation test. -/
theorem C5_truncate_spec_witness :
    (((exCats 3 2 1).map (fun c => c.name)).Nodup) ∧
    ((∀ c ∈ exCats 3 2 1,
      (((lookupA [("Walking", [(⟨"Kate", [], [], 1⟩ : OrderedStudent), ⟨"Suze", [], [], 2⟩,
          ⟨"Harry", [], [], 3⟩])] c.name).getD []).length ≤ c.max_placements →
        lookupA (truncate_categories [("Walking", [(⟨"Kate", [], [], 1⟩ : OrderedStudent),
          ⟨"Suze", [], [], 2⟩, ⟨"Harry", [], [], 3⟩])] (exCats 3 2 1)).1 c.name
          = lookupA [("Walking", [(⟨"Kate", [], [], 1⟩ : OrderedStudent), ⟨"Suze", [], [], 2⟩,
            ⟨"Harry", [], [], 3⟩])] c.name) ∧
      (c.max_placements < ((lookupA [("Walking", [(⟨"Kate", [], [], 1⟩ : OrderedStudent),
          ⟨"Suze", [], [], 2⟩, ⟨"Harry", [], [], 3⟩])] c.name).getD []).length →
        lookupA (truncate_categories [("Walking", [(⟨"Kate", [], [], 1⟩ : OrderedStudent),
          ⟨"Suze", [], [], 2⟩, ⟨"Harry", [], [], 3⟩])] (exCats 3 2 1)).1 c.name
          = some ((sortOS ((lookupA [("Walking", [(⟨"Kate", [], [], 1⟩ : OrderedStudent),
            ⟨"Suze", [], [], 2⟩, ⟨"Harry", [], [], 3⟩])] c.name).getD
            [])).take c.max_placements) ∧
        List.Pairwise (fun a b => a.order ≤ b.order)
          (evPart [("Walking", [(⟨"Kate", [], [], 1⟩ : OrderedStudent), ⟨"Suze", [], [], 2⟩,
            ⟨"Harry", [], [], 3⟩])] c) ∧
        ∀ x ∈ (sortOS ((lookupA [("Walking", [(⟨"Kate", [], [], 1⟩ : OrderedStudent),
            ⟨"Suze", [], [], 2⟩, ⟨"Harry", [], [], 3⟩])] c.name).getD
            [])).take c.max_placements,
          ∀ y ∈ evPart [("Walking", [(⟨"Kate", [], [], 1⟩ : OrderedStudent), ⟨"Suze", [], [], 2⟩,
            ⟨"Harry", [], [], 3⟩])] c, x.order ≤ y.order)) ∧
    (truncate_categories [("Walking", [(⟨"Kate", [], [], 1⟩ : OrderedStudent), ⟨"Suze", [], [], 2⟩,
      ⟨"Harry", [], [], 3⟩])] (exCats 3 2 1)).2
      = ((exCats 3 2 1).map (evPart [("Walking", [(⟨"Kate", [], [], 1⟩ : OrderedStudent),
        ⟨"Suze", [], [], 2⟩, ⟨"Harry", [], [], 3⟩])])).flatten) :=
  ⟨by decide,
    C5_truncate_spec (exCats 3 2 1)
      [("Walking", [(⟨"Kate", [], [], 1⟩ : OrderedStudent), ⟨"Suze", [], [], 2⟩,
        ⟨"Harry", [], [], 3⟩])] (by decide)⟩

/-! ### Placement-pass membership and count lemmas -/

theorem place_students_notP_mono : ∀ (us : List OrderedStudent) (p : PMap)
    (n : List OrderedStudent) (x : OrderedStudent), x ∈ n → x ∈ (place_students us p n).2 := by
  intro us
  induction us with
  | nil => intro p n x hx; exact hx
  | cons s rest ih =>
    intro p n x hx
    cases hs : s.preferences with
    | nil =>
      simp only [place_students, hs]
      exact ih p (n ++ [s]) x (List.mem_append_left _ hx)
    | cons c prefs =>
      by_cases hex : excludesCat s.exclude c.name
      · simp only [place_students, hs, if_pos hex]
        exact ih p _ x (List.mem_append_left _ hx)
      · simp only [place_students, hs, if_neg hex]
        exact ih _ n x hx

theorem pushA_count_ne (p : PMap) (kk : String) (t : OrderedStudent) (nm : String)
    (hne : t.name ≠ nm) (k : String) :
    ((lookupA (pushA p kk t) k).getD []).countP (fun r => r.name == nm)
      = ((lookupA p k).getD []).countP (fun r => r.name == nm) := by
  by_cases hk : k = kk
  · subst hk
    rw [lookupA_pushA_self]
    simp only [Option.getD_some, List.countP_append]
    have hb : (t.name == nm) = false := by
      simp [hne]
    have : (List.countP (fun r : OrderedStudent => r.name == nm) [t]) = 0 := by
      simp [List.countP, List.countP.go, hb]
    omega
  · rw [lookupA_pushA_ne p kk k t hk]

theorem place_students_count : ∀ (us : List OrderedStudent) (p : PMap)
    (n : List OrderedStudent) (nm : String), (∀ t ∈ us, t.name ≠ nm) → ∀ k,
    ((lookupA (place_students us p n).1 k).getD []).countP (fun r => r.name == nm)
      = ((lookupA p k).getD []).countP (fun r => r.name == nm) := by
  intro us
  induction us with
  | nil => intro p n nm _ k; rfl
  | cons s rest ih =>
    intro p n nm hall k
    have hs_ne : s.name ≠ nm := hall s (List.mem_cons_self s rest)
    have hrest : ∀ t ∈ rest, t.name ≠ nm := fun t ht => hall t (List.mem_cons_of_mem s ht)
    cases hs : s.preferences with
    | nil =>
      simp only [place_students, hs]
      exact ih p (n ++ [s]) nm hrest k
    | cons c prefs =>
      by_cases hex : excludesCat s.exclude c.name
      · simp only [place_students, hs, if_pos hex]
        exact ih p _ nm hrest k
      · simp only [place_students, hs, if_neg hex]
        rw [ih _ n nm hrest k]
        exact pushA_count_ne p c.name (⟨s.name, prefs, s.exclude, s.order⟩ : OrderedStudent)
          nm hs_ne k

/-- Claim C6: in a `place_students` pass, an unplaced student whose popped
front preference lies in its exclude set is moved to `not_placable` with that
preference consumed (even if further preferences remain), and no student of
that name is appended to any placed list by the pass (student names are
assumed distinct, per the data-model invariant). -/
theorem C6_place_students_excluded : ∀ (us : List OrderedStudent) (placed : PMap)
    (notP : List OrderedStudent) (s : OrderedStudent) (c : Category) (rest : List Category),
    ((us.map (fun r => r.name)).Nodup) → s ∈ us → s.preferences = c :: rest →
    excludesCat s.exclude c.name = true →
    ((⟨s.name, rest, s.exclude, s.order⟩ : OrderedStudent) ∈ (place_students us placed notP).2 ∧
      ∀ k, ((lookupA (place_students us placed notP).1 k).getD []).countP
          (fun r => r.name == s.name)
        = ((lookupA placed k).getD []).countP (fun r => r.name == s.name)) := by
  intro us
  induction us with
  | nil => intro placed notP s c rest _ hmem; simp at hmem
  | cons t ts ih =>
    intro placed notP s c rest hnd hmem hpref hex
    rw [List.map_cons] at hnd
    have hnd' := List.nodup_cons.mp hnd
    rcases List.mem_cons.mp hmem with heq | hmem'
    · subst heq
      have hts : ∀ r ∈ ts, r.name ≠ s.name := by
        intro r hr hh
        exact hnd'.1 (List.mem_map.mpr ⟨r, hr, hh⟩)
      simp only [place_students, hpref, if_pos hex]
      constructor
      · refine place_students_notP_mono ts placed _ _ ?_
        exact List.mem_append_right _ (by simp)
      · intro k
        exact place_students_count ts placed _ s.name hts k
    · have htne : t.name ≠ s.name := by
        intro hh
        exact hnd'.1 (List.mem_map.mpr ⟨s, hmem', hh.symm⟩)
      have hndts : (ts.map (fun r => r.name)).Nodup := hnd'.2
      cases hts : t.preferences with
      | nil =>
        simp only [place_students, hts]
        exact ih placed (notP ++ [t]) s c rest hndts hmem' hpref hex
      | cons c0 prefs0 =>
        by_cases hex0 : excludesCat t.exclude c0.name
        · simp only [place_students, hts, if_pos hex0]
          exact ih placed _ s c rest hndts hmem' hpref hex
        · simp only [place_students, hts, if_neg hex0]
          have hih := ih (pushA placed c0.name (⟨t.name, prefs0, t.exclude, t.order⟩ :
            OrderedStudent)) notP s c rest hndts hmem' hpref hex
          refine ⟨hih.1, ?_⟩
          intro k
          rw [hih.2 k]
          exact pushA_count_ne placed c0.name
            (⟨t.name, prefs0, t.exclude, t.order⟩ : OrderedStudent) s.name htne k

/-- Witness for C6 at the repository's exclusion test instance: Kate's front
preference Cooking is excluded, so she lands in `not_placable` with it
consumed and Cooking's list never receives her. -/
theorem C6_place_students_excluded_witness :
    (([(⟨"Bert", [exCooking 3, exReading 2], [], 0⟩ : OrderedStudent),
      ⟨"Kate", [exCooking 3], [exCooking 3, exReading 2], 1⟩].map (fun r => r.name)).Nodup) ∧
    (⟨"Kate", [exCooking 3], [exCooking 3, exReading 2], 1⟩ : OrderedStudent).preferences
      = exCooking 3 :: [] ∧
    excludesCat [exCooking 3, exReading 2] (exCooking 3).name = true ∧
    ((⟨"Kate", [], [exCooking 3, exReading 2], 1⟩ : OrderedStudent) ∈
      (place_students [(⟨"Bert", [exCooking 3, exReading 2], [], 0⟩ : OrderedStudent),
        ⟨"Kate", [exCooking 3], [exCooking 3, exReading 2], 1⟩] [] []).2 ∧
      ∀ k, ((lookupA (place_students [(⟨"Bert", [exCooking 3, exReading 2], [], 0⟩ :
          OrderedStudent), ⟨"Kate", [exCooking 3], [exCooking 3, exReading 2], 1⟩] [] []).1
          k).getD []).countP (fun r => r.name == "Kate")
        = ((lookupA ([] : PMap) k).getD []).countP (fun r => r.name == "Kate")) :=
  ⟨by decide, rfl, by decide,
    C6_place_students_excluded
      [(⟨"Bert", [exCooking 3, exReading 2], [], 0⟩ : OrderedStudent),
        ⟨"Kate", [exCooking 3], [exCooking 3, exReading 2], 1⟩] [] []
      (⟨"Kate", [exCooking 3], [exCooking 3, exReading 2], 1⟩ : OrderedStudent)
      (exCooking 3) [] (by decide) (by simp) rfl (by decide)⟩

/-! ### Key-uniqueness of engine-built tables -/

theorem place_students_keysND : ∀ (us : List OrderedStudent) (p : PMap)
    (n : List OrderedStudent), keysND p → keysND (place_students us p n).1 := by
  intro us
  induction us with
  | nil => intro p n h; exact h
  | cons s rest ih =>
    intro p n h
    cases hs : s.preferences with
    | nil => simp only [place_students, hs]; exact ih p _ h
    | cons c prefs =>
      by_cases hex : excludesCat s.exclude c.name
      · simp only [place_students, hs, if_pos hex]; exact ih p _ h
      · simp only [place_students, hs, if_neg hex]
        exact ih _ n (keysND_pushA p c.name _ h)

theorem truncate_keysND : ∀ (cats : List Category) (p : PMap),
    keysND p → keysND (truncate_categories p cats).1 := by
  intro cats
  induction cats with
  | nil => intro p h; exact h
  | cons c cs ih =>
    intro p h
    cases hl : lookupA p c.name with
    | none => simp only [truncate_categories, hl]; exact ih p h
    | some l =>
      by_cases hcap : c.max_placements < l.length
      · simp only [truncate_categories, hl, if_pos hcap]
        exact ih _ (keysND_setA p c.name _ h)
      · simp only [truncate_categories, hl, if_neg hcap]; exact ih p h

theorem da_loop_keysND (cats : List Category) : ∀ (fuel : Nat) (us : List OrderedStudent)
    (p : PMap) (n : List OrderedStudent), keysND p → keysND (da_loop cats fuel us p n).1 := by
  intro fuel
  induction fuel with
  | zero => intro us p n h; exact h
  | succ f ih =>
    intro us p n h
    by_cases he : us.isEmpty
    · simpa [da_loop, he] using h
    · simp only [da_loop, he, Bool.false_eq_true, if_false]
      refine ih _ _ _ ?_
      exact truncate_keysND cats _ (place_students_keysND us p n h)

theorem assignRandomGo_keysND : ∀ (ns : List OrderedStudent) (p : PMap)
    (cats : List Category) (draws : List Nat), keysND p →
    keysND (assignRandomGo ns p cats draws).2.1 := by
  intro ns
  induction ns with
  | nil => intro p cats draws h; exact h
  | cons s rest ih =>
    intro p cats draws h
    cases ho : openCats p cats s with
    | nil => simp only [assignRandomGo, ho]; exact ih p cats draws h
    | cons c0 cs =>
      simp only [assignRandomGo, ho]
      exact ih _ cats draws.tail (keysND_pushA p _ s h)

theorem ms_placed_keysND (students : List Student) (cats : List Category) (rng : Rng) :
    keysND (match_students students cats rng).placed := by
  simp only [match_students, match_students_rng, MatchResult.fromParts, assign_random]
  refine keysND_mapVals _ _ ?_
  refine assignRandomGo_keysND _ _ cats rng.draws ?_
  exact da_loop_keysND cats _ _ _ _ keysND_nil

/-! ### Exclusion-respect invariants of the table -/

theorem mapOK_nil : mapOK [] := by
  intro k l h
  simp [lookupA] at h

theorem mapOK_pushA (m : PMap) (k : String) (s : OrderedStudent) (h : mapOK m)
    (hs : excludesCat s.exclude k = false) : mapOK (pushA m k s) := by
  intro k' l' hl' r hr
  by_cases hk : k' = k
  · subst hk
    rw [lookupA_pushA_self] at hl'
    injection hl' with hl'
    subst hl'
    rcases List.mem_append.mp hr with h1 | h1
    · cases hq : lookupA m k' with
      | none => rw [hq] at h1; simp at h1
      | some l0 =>
        rw [hq] at h1
        exact h k' l0 hq r (by simpa using h1)
    · have : r = s := by simpa using h1
      subst this
      exact hs
  · rw [lookupA_pushA_ne m k k' s hk] at hl'
    exact h k' l' hl' r hr

theorem mapOK_setA (m : PMap) (k : String) (l v : List OrderedStudent) (h : mapOK m)
    (hl : lookupA m k = some l) (hsub : ∀ r ∈ v, r ∈ l) : mapOK (setA m k v) := by
  intro k' l' hl' r hr
  by_cases hk : k' = k
  · subst hk
    rw [lookupA_setA_self] at hl'
    injection hl' with hl'
    subst hl'
    exact h k' l hl r (hsub r hr)
  · rw [lookupA_setA_ne m k k' v hk] at hl'
    exact h k' l' hl' r hr

theorem place_students_mapOK : ∀ (us : List OrderedStudent) (p : PMap)
    (n : List OrderedStudent), mapOK p → mapOK (place_students us p n).1 := by
  intro us
  induction us with
  | nil => intro p n h; exact h
  | cons s rest ih =>
    intro p n h
    cases hs : s.preferences with
    | nil => simp only [place_students, hs]; exact ih p _ h
    | cons c prefs =>
      by_cases hex : excludesCat s.exclude c.name
      · simp only [place_students, hs, if_pos hex]; exact ih p _ h
      · simp only [place_students, hs, if_neg hex]
        refine ih _ n (mapOK_pushA p c.name _ h ?_)
        simpa using hex

theorem truncate_mapOK : ∀ (cats : List Category) (p : PMap),
    mapOK p → mapOK (truncate_categories p cats).1 := by
  intro cats
  induction cats with
  | nil => intro p h; exact h
  | cons c cs ih =>
    intro p h
    cases hl : lookupA p c.name with
    | none => simp only [truncate_categories, hl]; exact ih p h
    | some l =>
      by_cases hcap : c.max_placements < l.length
      · simp only [truncate_categories, hl, if_pos hcap]
        refine ih _ (mapOK_setA p c.name l _ h hl ?_)
        intro r hr
        exact (sortOS_perm l).mem_iff.mp (List.mem_of_mem_take hr)
      · simp only [truncate_categories, hl, if_neg hcap]; exact ih p h

theorem da_loop_mapOK (cats : List Category) : ∀ (fuel : Nat) (us : List OrderedStudent)
    (p : PMap) (n : List OrderedStudent), mapOK p → mapOK (da_loop cats fuel us p n).1 := by
  intro fuel
  induction fuel with
  | zero => intro us p n h; exact h
  | succ f ih =>
    intro us p n h
    by_cases he : us.isEmpty
    · simpa [da_loop, he] using h
    · simp only [da_loop, he, Bool.false_eq_true, if_false]
      refine ih _ _ _ ?_
      exact truncate_mapOK cats _ (place_students_mapOK us p n h)

theorem assignRandomGo_mapOK : ∀ (ns : List OrderedStudent) (p : PMap)
    (cats : List Category) (draws : List Nat), mapOK p →
    mapOK (assignRandomGo ns p cats draws).2.1 := by
  intro ns
  induction ns with
  | nil => intro p cats draws h; exact h
  | cons s rest ih =>
    intro p cats draws h
    cases ho : openCats p cats s with
    | nil => simp only [assignRandomGo, ho]; exact ih p cats draws h
    | cons c0 cs =>
      simp only [assignRandomGo, ho]
      refine ih _ cats draws.tail (mapOK_pushA p _ s h ?_)
      have hcmem : (c0 :: cs).getD (draws.headD 0 % (cs.length + 1)) c0
          ∈ openCats p cats s := by
        rw [ho]
        exact getD_mem_cons c0 cs _
      exact (openCats_mem p cats s _ hcmem).2.2

theorem ms_internal_mapOK (students : List Student) (cats : List Category) (rng : Rng) :
    mapOK (ms_internal students cats rng).2.1 := by
  simp only [ms_internal]
  refine assignRandomGo_mapOK _ _ cats rng.draws ?_
  exact da_loop_mapOK cats _ _ _ _ mapOK_nil

/-! ### Provenance of placed records -/

theorem ms_eq_fromParts (students : List Student) (cats : List Category) (rng : Rng) :
    match_students students cats rng
      = MatchResult.fromParts (ms_internal students cats rng).2.1
          (ms_internal students cats rng).1 := rfl

theorem ms_internal_pairs (students : List Student) (cats : List Category) (rng : Rng) :
    pairsM (heldAll (ms_internal students cats rng).2.1) +
      pairsM ((ms_internal students cats rng).1) = spairsM (rng.perm students) := by
  simp only [ms_internal]
  set u0 := draw_order students rng with hu0
  set lp := da_loop cats (phi u0 [] + 1) u0 [] [] with hlp
  have hrec : (heldAll (assignRandomGo (sortOS lp.2) lp.1 cats rng.draws).2.1 ++
      (assignRandomGo (sortOS lp.2) lp.1 cats rng.draws).1).Perm (heldAll lp.1 ++ lp.2) :=
    (assignRandomGo_held_perm _ _ _ _).trans (List.Perm.append_left _ (sortOS_perm lp.2))
  have hp := pairsM_perm hrec
  rw [pairsM_append, pairsM_append] at hp
  rw [hp]
  have hloop := da_loop_pairs cats (phi u0 [] + 1) u0 [] [] (by omega)
  rw [← hlp] at hloop
  rw [hloop]
  have hu : pairsM u0 = spairsM (rng.perm students) := by
    rw [hu0, draw_order]
    exact number_students_pairs (rng.perm students) 0
  rw [hu]
  simp [pairsM_nil, heldAll]

theorem lookupA_mem_heldAll (m : PMap) (k : String) (l : List OrderedStudent)
    (h : lookupA m k = some l) (r : OrderedStudent) (hr : r ∈ l) : r ∈ heldAll m := by
  induction m with
  | nil => simp [lookupA] at h
  | cons p rest ih =>
    rcases p with ⟨k0, l0⟩
    by_cases hp : k0 = k
    · have : l0 = l := by simpa [lookupA, hp] using h
      subst this
      simp only [heldAll, List.map_cons, List.flatten_cons]
      exact List.mem_append_left _ hr
    · have hrest : lookupA rest k = some l := by simpa [lookupA, hp] using h
      have := ih hrest
      simp only [heldAll, List.map_cons, List.flatten_cons]
      exact List.mem_append_right _ (by simpa [heldAll] using this)

theorem ms_provenance (students : List Student) (cats : List Category) (rng : Rng)
    (hperm : (rng.perm students).Perm students) (k : String) (l : List Student)
    (s' : Student) (hl : lookupA (match_students students cats rng).placed k = some l)
    (hs' : s' ∈ l) : ∃ s₀ ∈ students, s₀.name = s'.name ∧ s₀.exclude = s'.exclude := by
  have hlm : (lookupA (ms_internal students cats rng).2.1 k).map
      (fun l => l.map OrderedStudent.toStudent) = some l := by
    rw [← lookupA_mapVals]
    exact hl
  cases hq : lookupA (ms_internal students cats rng).2.1 k with
  | none => rw [hq] at hlm; simp at hlm
  | some l0 =>
    rw [hq] at hlm
    have hlm2 : l0.map OrderedStudent.toStudent = l := by simpa using hlm
    subst hlm2
    rcases List.mem_map.mp hs' with ⟨r, hr, hre⟩
    have hheld : r ∈ heldAll (ms_internal students cats rng).2.1 :=
      lookupA_mem_heldAll _ k l0 hq r hr
    have hmem : pairOf r ∈ pairsM (heldAll (ms_internal students cats rng).2.1) := by
      simp only [pairsM, Multiset.mem_coe]
      exact List.mem_map.mpr ⟨r, hheld, rfl⟩
    have hsum : pairOf r ∈ spairsM (rng.perm students) := by
      rw [← ms_internal_pairs students cats rng]
      exact Multiset.mem_add.mpr (Or.inl hmem)
    have : ∃ s₀ ∈ rng.perm students, spairOf s₀ = pairOf r := by
      simpa only [spairsM, Multiset.mem_coe, List.mem_map] using hsum
    rcases this with ⟨s₀, hs₀, hse⟩
    refine ⟨s₀, hperm.mem_iff.mp hs₀, ?_, ?_⟩
    · have h1 : s₀.name = r.name := congrArg Prod.fst hse
      rw [h1, ← hre]
      rfl
    · have h2 : s₀.exclude = r.exclude := congrArg Prod.snd hse
      rw [h2, ← hre]
      rfl

theorem ms_no_excluded_name (students : List Student) (cats : List Category) (rng : Rng)
    (n k : String) (hperm : (rng.perm students).Perm students)
    (hstud : ∀ s ∈ students, s.name = n → excludesCat s.exclude k = true) :
    ∀ l, lookupA (match_students students cats rng).placed k = some l →
      ∀ s' ∈ l, s'.name ≠ n := by
  intro l hl s' hs' hname
  have hlm : (lookupA (ms_internal students cats rng).2.1 k).map
      (fun l => l.map OrderedStudent.toStudent) = some l := by
    rw [← lookupA_mapVals]
    exact hl
  cases hq : lookupA (ms_internal students cats rng).2.1 k with
  | none => rw [hq] at hlm; simp at hlm
  | some l0 =>
    rw [hq] at hlm
    have hlm2 : l0.map OrderedStudent.toStudent = l := by simpa using hlm
    subst hlm2
    rcases List.mem_map.mp hs' with ⟨r, hr, hre⟩
    have hok : excludesCat r.exclude k = false :=
      ms_internal_mapOK students cats rng k l0 hq r hr
    rcases ms_provenance students cats rng hperm k _ s' hl hs' with ⟨s₀, hs₀, hn, hx⟩
    have htrue : excludesCat s₀.exclude k = true := hstud s₀ hs₀ (hn.trans hname)
    rw [hx] at htrue
    have : s'.exclude = r.exclude := by rw [← hre]; rfl
    rw [this] at htrue
    rw [hok] at htrue
    exact Bool.false_ne_true htrue

/-! ### Orchestrator exclusion preservation -/

theorem excludesCat_append (ex l : List Category) (k : String)
    (h : excludesCat ex k = true) : excludesCat (ex ++ l) k = true := by
  simp only [excludesCat, List.any_append, Bool.or_eq_true]
  exact Or.inl (by simpa [excludesCat] using h)

theorem push_exclude_names (students : List Student) (nm : String) (c : Category) :
    (push_exclude students nm c).map (fun s => s.name) = students.map (fun s => s.name) := by
  simp only [push_exclude, List.map_map]
  refine List.map_congr_left ?_
  intro s _
  by_cases h : s.name = nm
  · simp [h]
  · simp [h]

theorem add_placed_names (c : Category) : ∀ (ps students : List Student) (acc : MatchResult),
    ((add_placed c students acc ps).1).map (fun s => s.name)
      = students.map (fun s => s.name) := by
  intro ps
  induction ps with
  | nil => intro students acc; rfl
  | cons p rest ih =>
    intro students acc
    simp only [add_placed]
    rw [ih]
    exact push_exclude_names students p.name c

theorem merge_round_names : ∀ (cats : List Category) (students : List Student)
    (acc : MatchResult) (np : List (String × List Student)),
    ((merge_round cats students acc np).2.1).map (fun s => s.name)
      = students.map (fun s => s.name) := by
  intro cats
  induction cats with
  | nil => intro students acc np; rfl
  | cons c cs ih =>
    intro students acc np
    cases hl : lookupA np c.name with
    | some ps =>
      simp only [merge_round, hl]
      rw [ih]
      exact add_placed_names _ ps students _
    | none =>
      simp only [merge_round, hl]
      rw [ih]

theorem push_exclude_prop (students : List Student) (nm : String) (c : Category) (n k : String)
    (h : ∀ s ∈ students, s.name = n → excludesCat s.exclude k = true) :
    ∀ s ∈ push_exclude students nm c, s.name = n → excludesCat s.exclude k = true := by
  intro s hs hn
  rcases List.mem_map.mp hs with ⟨s0, hs0, hse⟩
  by_cases hb : s0.name = nm
  · have : s = ⟨s0.name, s0.preferences, s0.exclude ++ [c]⟩ := by
      rw [← hse]; simp [hb]
    rw [this] at hn ⊢
    exact excludesCat_append s0.exclude [c] k (h s0 hs0 hn)
  · have hss : s = s0 := by rw [← hse]; simp [hb]
    rw [hss] at hn ⊢
    exact h s0 hs0 hn

theorem add_placed_prop (c : Category) (n k : String) : ∀ (ps students : List Student)
    (acc : MatchResult),
    (∀ s ∈ students, s.name = n → excludesCat s.exclude k = true) →
    ∀ s ∈ (add_placed c students acc ps).1, s.name = n → excludesCat s.exclude k = true := by
  intro ps
  induction ps with
  | nil => intro students acc h; exact h
  | cons p rest ih =>
    intro students acc h
    simp only [add_placed]
    exact ih _ _ (push_exclude_prop students p.name c n k h)

theorem merge_round_prop (n k : String) : ∀ (cats : List Category) (students : List Student)
    (acc : MatchResult) (np : List (String × List Student)),
    (∀ s ∈ students, s.name = n → excludesCat s.exclude k = true) →
    ∀ s ∈ (merge_round cats students acc np).2.1, s.name = n →
      excludesCat s.exclude k = true := by
  intro cats
  induction cats with
  | nil => intro students acc np h; exact h
  | cons c cs ih =>
    intro students acc np h
    cases hl : lookupA np c.name with
    | some ps =>
      simp only [merge_round, hl]
      exact ih _ _ _ (add_placed_prop _ n k ps students _ h)
    | none =>
      simp only [merge_round, hl]
      exact ih _ _ _ h

theorem lookupA_append_single_some {α : Type} (m : List (String × List α)) (k0 k : String)
    (v0 l : List α) (h : lookupA m k = some l) :
    lookupA (m ++ [(k0, v0)]) k = some l := by
  induction m with
  | nil => simp [lookupA] at h
  | cons p rest ih =>
    rcases p with ⟨kp, vp⟩
    by_cases hk : kp = k
    · simpa [lookupA, hk] using h
    · have h' : lookupA rest k = some l := by simpa [lookupA, hk] using h
      simpa [lookupA, hk] using ih h'

theorem lookupA_append_single_none {α : Type} (m : List (String × List α)) (k0 k : String)
    (v0 : List α) (h : lookupA m k = none) :
    lookupA (m ++ [(k0, v0)]) k = if k0 == k then some v0 else none := by
  induction m with
  | nil => simp [lookupA]
  | cons p rest ih =>
    rcases p with ⟨kp, vp⟩
    by_cases hk : kp = k
    · simp [lookupA, hk] at h
    · have h' : lookupA rest k = none := by simpa [lookupA, hk] using h
      simpa [lookupA, hk] using ih h'

theorem lookupA_ensureKey_cases {α : Type} (m : List (String × List α)) (k0 k : String)
    (l : List α) (h : lookupA (ensureKey m k0) k = some l) :
    lookupA m k = some l ∨ l = [] := by
  unfold ensureKey at h
  cases hq : lookupA m k0 with
  | some v => rw [hq] at h; exact Or.inl h
  | none =>
    rw [hq] at h
    cases hm : lookupA m k with
    | some v =>
      rw [lookupA_append_single_some m k0 k [] v hm] at h
      exact Or.inl h
    | none =>
      rw [lookupA_append_single_none m k0 k [] hm] at h
      by_cases hk : k0 = k
      · right
        have : some ([] : List α) = some l := by simpa [hk] using h
        injection this with hthis
        exact hthis.symm
      · exfalso
        simp [hk] at h

theorem add_placed_acc_other (c : Category) (k : String) (hk : c.name ≠ k) :
    ∀ (ps students : List Student) (acc : MatchResult),
    lookupA (add_placed c students acc ps).2.placed k = lookupA acc.placed k := by
  intro ps
  induction ps with
  | nil => intro students acc; rfl
  | cons p rest ih =>
    intro students acc
    simp only [add_placed]
    rw [ih]
    exact lookupA_pushA_ne acc.placed c.name k p (fun hh => hk hh.symm)

theorem add_placed_acc_prop (c : Category) (n k : String) : ∀ (ps students : List Student)
    (acc : MatchResult), (∀ p ∈ ps, p.name ≠ n) →
    (∀ l, lookupA acc.placed k = some l → ∀ s' ∈ l, s'.name ≠ n) →
    ∀ l, lookupA (add_placed c students acc ps).2.placed k = some l →
      ∀ s' ∈ l, s'.name ≠ n := by
  intro ps
  induction ps with
  | nil => intro students acc _ hacc; exact hacc
  | cons p rest ih =>
    intro students acc hps hacc
    simp only [add_placed]
    refine ih _ _ (fun q hq => hps q (List.mem_cons_of_mem p hq)) ?_
    intro l hl s' hs' hsn
    by_cases hk : c.name = k
    · subst hk
      rw [lookupA_pushA_self] at hl
      injection hl with hl
      subst hl
      rcases List.mem_append.mp hs' with h1 | h1
      · cases hq : lookupA acc.placed c.name with
        | none => rw [hq] at h1; simp at h1
        | some l0 =>
          rw [hq] at h1
          exact hacc l0 hq s' (by simpa using h1) hsn
      · have hsp : s' = p := by simpa using h1
        rw [hsp] at hsn
        exact hps p (List.mem_cons_self p rest) hsn
    · rw [lookupA_pushA_ne acc.placed c.name k p (fun hh => hk hh.symm)] at hl
      exact hacc l hl s' hs' hsn

theorem merge_round_acc_prop (n k : String) : ∀ (cats : List Category)
    (students : List Student) (acc : MatchResult) (np : List (String × List Student)),
    keysND np →
    (∀ l, lookupA np k = some l → ∀ s' ∈ l, s'.name ≠ n) →
    (∀ l, lookupA acc.placed k = some l → ∀ s' ∈ l, s'.name ≠ n) →
    ∀ l, lookupA (merge_round cats students acc np).2.2.placed k = some l →
      ∀ s' ∈ l, s'.name ≠ n := by
  intro cats
  induction cats with
  | nil => intro students acc np _ _ hacc; exact hacc
  | cons c cs ih =>
    intro students acc np hnd hnp hacc
    cases hl : lookupA np c.name with
    | some ps =>
      simp only [merge_round, hl]
      refine ih _ _ _ (keysND_removeA np c.name hnd) ?_ ?_
      · intro l hll s' hs'
        by_cases hk : c.name = k
        · subst hk
          rw [lookupA_removeA_self np c.name hnd] at hll
          exact absurd hll (by simp)
        · rw [lookupA_removeA_ne np c.name k (fun hh => hk hh.symm)] at hll
          exact hnp l hll s' hs'
      · have hacc1 : ∀ l, lookupA (ensureKey acc.placed c.name) k = some l →
            ∀ s' ∈ l, s'.name ≠ n := by
          intro l hll s' hs'
          rcases lookupA_ensureKey_cases acc.placed c.name k l hll with h1 | h1
          · exact hacc l h1 s' hs'
          · subst h1; simp at hs'
        by_cases hk : c.name = k
        · subst hk
          have hps : ∀ p ∈ ps, p.name ≠ n := fun p hp => hnp ps hl p hp
          exact add_placed_acc_prop _ n c.name ps students _ hps hacc1
        · intro l hll s' hs'
          rw [add_placed_acc_other (⟨c.name, c.max_placements - ps.length⟩ : Category) k hk ps
            students (⟨ensureKey acc.placed c.name, acc.not_placable⟩ : MatchResult)] at hll
          exact hacc1 l hll s' hs'
    | none =>
      simp only [merge_round, hl]
      exact ih _ _ _ hnd hnp hacc

theorem multi_loop_no_excluded (n k : String) : ∀ (fuel : Nat) (students : List Student)
    (cats : List Category) (acc : MatchResult) (prev spots : Nat) (fr : Bool) (rng : Rng),
    (∀ l, (rng.perm l).Perm l) →
    (∀ s ∈ students, s.name = n → excludesCat s.exclude k = true) →
    (∀ l, lookupA acc.placed k = some l → ∀ s' ∈ l, s'.name ≠ n) →
    ∀ l, lookupA (multi_loop fuel students cats acc prev spots fr rng).placed k = some l →
      ∀ s' ∈ l, s'.name ≠ n := by
  intro fuel
  induction fuel with
  | zero => intro students cats acc prev spots fr rng _ _ hacc; exact hacc
  | succ f ih =>
    intro students cats acc prev spots fr rng hperm hstud hacc
    by_cases hg : 0 < spots ∧ spots < prev
    · simp only [multi_loop, if_pos hg]
      have hmr1 : (match_students_rng students cats rng).1 = match_students students cats rng :=
        rfl
      have hnp : ∀ l, lookupA (match_students_rng students cats rng).1.placed k = some l →
          ∀ s' ∈ l, s'.name ≠ n := by
        rw [hmr1]
        exact ms_no_excluded_name students cats rng n k (hperm students) hstud
      have hknd : keysND (match_students_rng students cats rng).1.placed := by
        rw [hmr1]
        exact ms_placed_keysND students cats rng
      have hmergedacc : ∀ l, lookupA (merge_round cats students acc
          (match_students_rng students cats rng).1.placed).2.2.placed k = some l →
          ∀ s' ∈ l, s'.name ≠ n :=
        merge_round_acc_prop n k cats students acc
          (match_students_rng students cats rng).1.placed hknd hnp hacc
      have hstud' : ∀ s ∈ (merge_round cats students acc
          (match_students_rng students cats rng).1.placed).2.1, s.name = n →
          excludesCat s.exclude k = true :=
        merge_round_prop n k cats students acc
          (match_students_rng students cats rng).1.placed hstud
      have hperm' : ∀ l, ((match_students_rng students cats rng).2.perm l).Perm l := by
        have : (match_students_rng students cats rng).2.perm = rng.perm := rfl
        rw [this]
        exact hperm
      cases fr with
      | true =>
        simp only [if_pos rfl]
        exact ih _ _ _ _ _ _ _ hperm' hstud' hmergedacc
      | false =>
        simp only [Bool.false_eq_true, if_false]
        exact ih _ _ _ _ _ _ _ hperm' hstud' hmergedacc
    · simp only [multi_loop, if_neg hg]
      exact hacc

/-- Claim C3: no student ever appears in the output placed list of a category
belonging to that student's original, caller-supplied exclude set — for
`match_students` as well as for `match_students_to_multiple_categories`.  The
hypotheses are the §6 shuffle contract and distinct student names (the
data-model invariant); membership in the exclude set and slot identity are by
category name, as in the source. -/
theorem C3_exclusion_respected (students : List Student) (cats : List Category) (rng : Rng)
    (s₀ : Student) (k : String) (hperm : ∀ l, (rng.perm l).Perm l)
    (hnd : (students.map (fun s => s.name)).Nodup)
    (hs₀ : s₀ ∈ students) (hx : excludesCat s₀.exclude k = true) :
    (∀ l, lookupA (match_students students cats rng).placed k = some l →
      ∀ s' ∈ l, s'.name ≠ s₀.name) ∧
    (∀ l, lookupA (match_students_to_multiple_categories students cats rng).placed k = some l →
      ∀ s' ∈ l, s'.name ≠ s₀.name) := by
  have hstud : ∀ s ∈ students, s.name = s₀.name → excludesCat s.exclude k = true := by
    intro s hs hn
    have hss : s = s₀ := List.inj_on_of_nodup_map hnd hs hs₀ hn
    rw [hss]
    exact hx
  constructor
  · exact ms_no_excluded_name students cats rng s₀.name k (hperm students) hstud
  · simp only [match_students_to_multiple_categories]
    refine multi_loop_no_excluded s₀.name k _ students cats ⟨[], []⟩ USIZE_MAX (spotsOf cats)
      true rng hperm hstud ?_
    intro l hl
    simp [lookupA] at hl

/-- Witness for C3: Harry excludes Cooking in the example instance, and indeed
no Cooking list of either matcher output contains Harry. -/
theorem C3_exclusion_respected_witness :
    ((exStudents 3 2 1).map (fun s => s.name)).Nodup ∧
    exHarry 3 1 ∈ exStudents 3 2 1 ∧
    excludesCat (exHarry 3 1).exclude "Cooking" = true ∧
    ((∀ l, lookupA (match_students (exStudents 3 2 1) (exCats 3 2 1) idRng).placed "Cooking"
        = some l → ∀ s' ∈ l, s'.name ≠ (exHarry 3 1).name) ∧
      (∀ l, lookupA (match_students_to_multiple_categories (exStudents 3 2 1) (exCats 3 2 1)
        idRng).placed "Cooking" = some l → ∀ s' ∈ l, s'.name ≠ (exHarry 3 1).name)) :=
  ⟨by decide, by decide, by decide,
    C3_exclusion_respected (exStudents 3 2 1) (exCats 3 2 1) idRng (exHarry 3 1) "Cooking"
      (fun l => List.Perm.refl l) (by decide) (by decide) (by decide)⟩
